import Mathlib

/-!
# DoubleClick price encryption: `Encrypt`, `Decrypt`, `DecryptRaw`

A shallow embedding of `pricers/doubleclick_pricer.go` together with the parts of
Go's `encoding/base64`, `encoding/binary` and `bytes` that it runs.

* A Go `byte` is a `Fin 256`; a `[]byte` and a `string` are a `List Byte`
  (length and capacity are not told apart); `uint`, `uint32`, `uint64` and `int`
  are natural numbers, reduced modulo `2 ^ w` where the Go code can overflow.
* A Go call either returns or stops with a run-time panic (index or slice out of
  range): `Run.ret` and `Run.panic`.  Loops whose trip count is not structural run on
  fuel; `Run.starved` is the outcome of a loop that used up its fuel.
* `crypto/md5`, the helpers `ApplyScaleFactor`, `HmacSum`, `HmacSum2` and the
  floating-point operations are not part of the translated files: they are the
  fields of `Env`, and every theorem holds for whatever functions are put there.
-/

namespace pricers

/-! ## Bytes, outcomes, errors -/

/-- Go `byte`. -/
abbrev Byte := Fin 256

/-- The Go conversion `byte(x)` of an unsigned integer: the low 8 bits. -/
def toByte (x : Nat) : Byte := ⟨x % 256, Nat.mod_lt _ (by decide)⟩

/-- A Go array `[n]byte`. -/
abbrev Arr (n : Nat) := { l : List Byte // l.length = n }

/-- Outcome of running a Go function. -/
inductive Run (α : Type) where
  | ret (a : α)
  | panic
  | starved
  deriving DecidableEq, Repr

/-- Sequencing of Go statements: a panic (or an exhausted loop) ends the run. -/
def Run.bind {α β : Type} : Run α → (α → Run β) → Run β
  | .ret a, f => f a
  | .panic, _ => .panic
  | .starved, _ => .starved

instance : Monad Run where
  pure := Run.ret
  bind := Run.bind

/-- `encoding/base64.CorruptInputError`: the offset of the offending input byte. -/
abbrev CorruptInputError := Nat

/-- The non-nil values of Go's `error` that `DecryptRaw` can return: the two package
variables `ErrWrongSize`, `ErrWrongSignature`, and a decoder error handed through. -/
inductive Error where
  | ErrWrongSize
  | ErrWrongSignature
  | Corrupt (e : CorruptInputError)
  deriving DecidableEq, Repr

/-- The slice expression `b[lo:hi]`: panics unless `lo ≤ hi ≤ len(b)`. -/
def slice (b : List Byte) (lo hi : Nat) : Run (List Byte) :=
  if lo ≤ hi ∧ hi ≤ b.length then .ret ((b.drop lo).take (hi - lo)) else .panic

/-- The assignment `b[i] = v`: panics unless `i < len(b)`. -/
def store (b : List Byte) (i : Nat) (v : Byte) : Run (List Byte) :=
  if i < b.length then .ret (b.set i v) else .panic

/-- Consecutive assignments `b[off] = v₀; b[off+1] = v₁; …`, all in range. -/
def storeBytes (b : List Byte) (off : Nat) : List Byte → List Byte
  | [] => b
  | v :: vs => storeBytes (b.set off v) (off + 1) vs

/-! ## `bytes.TrimRight` -/

/-- `bytes.trimRightByte(s, c)`: drops bytes equal to `c` from the end while there are
any.  The loop `for len(s) > 0 && s[len(s)-1] == c { s = s[:len(s)-1] }` walks the
slice from its last byte; here it is the same walk over the reversed list. -/
def trimRightByte (s : List Byte) (c : Byte) : List Byte :=
  ((s.reverse).dropWhile (fun x => x == c)).reverse

/-- `bytes.TrimRight(s, "=")`: with a one-byte ASCII cutset Go calls `trimRightByte`. -/
def TrimRight (s : List Byte) (c : Byte) : List Byte := trimRightByte s c

/-! ## `encoding/binary.BigEndian` -/

/-- `binary.BigEndian.Uint64(b)`: panics when `len(b) < 8` (the check `_ = b[7]`). -/
def Uint64 : List Byte → Run Nat
  | b0 :: b1 :: b2 :: b3 :: b4 :: b5 :: b6 :: b7 :: _ =>
      .ret (b7.val ||| (b6.val <<< 8) ||| (b5.val <<< 16) ||| (b4.val <<< 24) |||
            (b3.val <<< 32) ||| (b2.val <<< 40) ||| (b1.val <<< 48) ||| (b0.val <<< 56))
  | _ => .panic

/-- `binary.BigEndian.Uint32(b)`: panics when `len(b) < 4` (the check `_ = b[3]`). -/
def Uint32 : List Byte → Run Nat
  | b0 :: b1 :: b2 :: b3 :: _ =>
      .ret (b3.val ||| (b2.val <<< 8) ||| (b1.val <<< 16) ||| (b0.val <<< 24))
  | _ => .panic

/-- The eight bytes `byte(v >> 56), …, byte(v)` that `PutUint64` stores. -/
def be64 (v : Nat) : List Byte :=
  [toByte (v >>> 56), toByte (v >>> 48), toByte (v >>> 40), toByte (v >>> 32),
   toByte (v >>> 24), toByte (v >>> 16), toByte (v >>> 8), toByte v]

/-- The four bytes `byte(v >> 24), …, byte(v)` that `PutUint32` stores. -/
def be32 (v : Nat) : List Byte :=
  [toByte (v >>> 24), toByte (v >>> 16), toByte (v >>> 8), toByte v]

/-- `binary.BigEndian.PutUint64(b[off:], v)`: panics when fewer than 8 bytes are left
(the check `_ = b[7]`), else stores the 8 bytes. -/
def PutUint64 (b : List Byte) (off : Nat) (v : Nat) : Run (List Byte) :=
  if off + 8 ≤ b.length then .ret (storeBytes b off (be64 v)) else .panic

/-- `binary.BigEndian.PutUint32(b[off:], v)`: panics when fewer than 4 bytes are left. -/
def PutUint32 (b : List Byte) (off : Nat) (v : Nat) : Run (List Byte) :=
  if off + 4 ≤ b.length then .ret (storeBytes b off (be32 v)) else .panic

/-! ## `encoding/base64.RawURLEncoding`

`RawURLEncoding = URLEncoding.WithPadding(NoPadding)`: the alphabet is `encodeURL`, the
padding character is `NoPadding` (the rune `-1`, equal to no byte) and `strict` is
false.  The code below is the library code with these three values filled in. -/

/-- The alphabet `encodeURL`:
`ABCDEFGHIJKLMNOPQRSTUVWXYZabcdefghijklmnopqrstuvwxyz0123456789-_`. -/
def encodeURL : List Byte :=
  [65, 66, 67, 68, 69, 70, 71, 72, 73, 74, 75, 76, 77, 78, 79, 80, 81, 82, 83, 84, 85, 86,
   87, 88, 89, 90,
   97, 98, 99, 100, 101, 102, 103, 104, 105, 106, 107, 108, 109, 110, 111, 112, 113, 114,
   115, 116, 117, 118, 119, 120, 121, 122,
   48, 49, 50, 51, 52, 53, 54, 55, 56, 57, 45, 95]

/-- The table lookup `enc.encode[i]` of the `[64]byte` alphabet. -/
def encodeChar (i : Nat) : Byte := encodeURL.getD i 0

/-- The table `enc.decodeMap`, a `[256]uint8`: `NewEncoding` fills it with `0xff` and
then sets `decodeMap[encoder[i]] = i` for the 64 letters.  The entries are kept as
natural numbers, all below 256. -/
def decodeMap (c : Byte) : Nat :=
  let i := encodeURL.indexOf c
  if i < 64 then i else 0xff

/-- `Encoding.Encode`: three source bytes give four letters; a remainder of two bytes
gives three letters and a remainder of one byte gives two (no padding is written since
`padChar = NoPadding`). -/
def Encode : List Byte → List Byte
  | [] => []
  | [a] =>
      let val := a.val <<< 16
      [encodeChar ((val >>> 18) &&& 0x3F), encodeChar ((val >>> 12) &&& 0x3F)]
  | [a, b] =>
      let val := (a.val <<< 16) ||| (b.val <<< 8)
      [encodeChar ((val >>> 18) &&& 0x3F), encodeChar ((val >>> 12) &&& 0x3F),
       encodeChar ((val >>> 6) &&& 0x3F)]
  | a :: b :: c :: rest =>
      let val := (a.val <<< 16) ||| (b.val <<< 8) ||| c.val
      encodeChar ((val >>> 18) &&& 0x3F) :: encodeChar ((val >>> 12) &&& 0x3F) ::
        encodeChar ((val >>> 6) &&& 0x3F) :: encodeChar (val &&& 0x3F) :: Encode rest

/-- `Encoding.EncodeToString`: allocates the output and runs `Encode`. -/
def EncodeToString (src : List Byte) : List Byte := Encode src

/-- What the reading loop of `decodeQuantum` hands on. -/
inductive QRead where
  /-- a `return si, 0, err` from inside the loop -/
  | stop (rest : List Byte) (si : Nat) (err : Option CorruptInputError)
  /-- the loop is left with `dlen` letters in `dbuf` -/
  | conv (dlen : Nat) (dbuf : List Nat) (rest : List Byte) (si : Nat)
  deriving DecidableEq, Repr

/-- The loop `for j := 0; j < len(dbuf); j++` of `decodeQuantum`.  `rest` is
`src[si:]`.  A letter goes to `dbuf[j]`; `\n` and `\r` are skipped (`j--; continue`);
any other byte is an error, since it cannot equal `padChar`; at the end of the input
`j == 0` returns without error, `j == 1` is an error, and `j ≥ 2` leaves the loop with
`dlen = j`. -/
def readQuantum : List Byte → Nat → List Nat → Nat → QRead
  | [], j, dbuf, si =>
      if 4 ≤ j then .conv 4 dbuf [] si
      else if j = 0 then .stop [] si none
      else if j = 1 then .stop [] si (some (si - j))
      else .conv j dbuf [] si
  | c :: rest, j, dbuf, si =>
      if 4 ≤ j then .conv 4 dbuf (c :: rest) si
      else if decodeMap c ≠ 0xff then readQuantum rest (j + 1) (dbuf.set j (decodeMap c)) (si + 1)
      else if c = 10 ∨ c = 13 then readQuantum rest j dbuf (si + 1)
      else .stop rest (si + 1) (some (si + 1 - 1))

/-- What `decodeQuantum` returns, with the memory it leaves behind. -/
structure QOut where
  dst : List Byte
  rest : List Byte
  nsi : Nat
  n : Nat
  err : Option CorruptInputError
  deriving DecidableEq, Repr

/-- `Encoding.decodeQuantum(dst[n:], src, si)`: reads up to four letters, packs them
into `val` and stores `dlen - 1` bytes, last byte first (`dst[2]`, `dst[1]`, `dst[0]`).
With `strict` false the unused low bits of a short quantum are not looked at. -/
def decodeQuantum (dst : List Byte) (n : Nat) (rest : List Byte) (si : Nat) : Run QOut :=
  match readQuantum rest 0 [0, 0, 0, 0] si with
  | .stop rest1 si1 err => .ret ⟨dst, rest1, si1, 0, err⟩
  | .conv dlen dbuf rest1 si1 =>
      let val := (dbuf.getD 0 0 <<< 18) ||| (dbuf.getD 1 0 <<< 12) ||| (dbuf.getD 2 0 <<< 6) |||
        dbuf.getD 3 0
      let b2 := toByte (val >>> 0)
      let b1 := toByte (val >>> 8)
      let b0 := toByte (val >>> 16)
      match dlen with
      | 4 => do
          let d ← store dst (n + 2) b2
          let d ← store d (n + 1) b1
          let d ← store d n b0
          pure ⟨d, rest1, si1, 3, none⟩
      | 3 => do
          let d ← store dst (n + 1) b1
          let d ← store d n b0
          pure ⟨d, rest1, si1, 2, none⟩
      | 2 => do
          let d ← store dst n b0
          pure ⟨d, rest1, si1, 1, none⟩
      | k => pure ⟨dst, rest1, si1, k - 1, none⟩

/-- `assemble64`: fails when one of the eight table values is `0xff`. -/
def assemble64 (n1 n2 n3 n4 n5 n6 n7 n8 : Nat) : Option Nat :=
  if (n1 ||| n2 ||| n3 ||| n4 ||| n5 ||| n6 ||| n7 ||| n8) = 0xff then none
  else some ((n1 <<< 58) ||| (n2 <<< 52) ||| (n3 <<< 46) ||| (n4 <<< 40) |||
             (n5 <<< 34) ||| (n6 <<< 28) ||| (n7 <<< 22) ||| (n8 <<< 16))

/-- `assemble32`: fails when one of the four table values is `0xff`. -/
def assemble32 (n1 n2 n3 n4 : Nat) : Option Nat :=
  if (n1 ||| n2 ||| n3 ||| n4) = 0xff then none
  else some ((n1 <<< 26) ||| (n2 <<< 20) ||| (n3 <<< 14) ||| (n4 <<< 8))

/-- The variables of `Encoding.Decode`: the destination, the count `n` of decoded
bytes, the unread input `src[si:]` and `si`. -/
structure DecState where
  dst : List Byte
  n : Nat
  rest : List Byte
  si : Nat
  deriving DecidableEq, Repr

/-- One call `si, ninc, err = enc.decodeQuantum(dst[n:], src, si); n += ninc` inside a
loop of `Decode`. -/
def quantumStep (s : DecState) : Run (DecState × Option CorruptInputError) :=
  (decodeQuantum s.dst s.n s.rest s.si).bind fun q =>
    .ret (⟨q.dst, s.n + q.n, q.rest, q.nsi⟩, q.err)

/-- The first loop of `Decode` (64-bit platforms):
`for len(src)-si >= 8 && len(dst)-n >= 8`.  Eight letters are assembled and stored with
`PutUint64`, which writes six decoded bytes and two zero bytes; when one of the eight
is not a letter the quantum is decoded byte by byte.  The result is the state at loop
exit, or the state and error of a `return n, err`. -/
def loop64 : Nat → DecState → Run (DecState × Option CorruptInputError)
  | 0, _ => .starved
  | fuel + 1, s =>
    match s.rest with
    | c0 :: c1 :: c2 :: c3 :: c4 :: c5 :: c6 :: c7 :: rest1 =>
      if 8 ≤ s.dst.length - s.n then
        match assemble64 (decodeMap c0) (decodeMap c1) (decodeMap c2) (decodeMap c3)
            (decodeMap c4) (decodeMap c5) (decodeMap c6) (decodeMap c7) with
        | some dn =>
            (PutUint64 s.dst s.n dn).bind fun d =>
              loop64 fuel ⟨d, s.n + 6, rest1, s.si + 8⟩
        | none =>
            (quantumStep s).bind fun r =>
              match r.2 with
              | some e => .ret (r.1, some e)
              | none => loop64 fuel r.1
      else .ret (s, none)
    | _ => .ret (s, none)

/-- The second loop of `Decode`: `for len(src)-si >= 4 && len(dst)-n >= 4`, four
letters at a time with `PutUint32` (three decoded bytes and one zero byte). -/
def loop32 : Nat → DecState → Run (DecState × Option CorruptInputError)
  | 0, _ => .starved
  | fuel + 1, s =>
    match s.rest with
    | c0 :: c1 :: c2 :: c3 :: rest1 =>
      if 4 ≤ s.dst.length - s.n then
        match assemble32 (decodeMap c0) (decodeMap c1) (decodeMap c2) (decodeMap c3) with
        | some dn =>
            (PutUint32 s.dst s.n dn).bind fun d =>
              loop32 fuel ⟨d, s.n + 3, rest1, s.si + 4⟩
        | none =>
            (quantumStep s).bind fun r =>
              match r.2 with
              | some e => .ret (r.1, some e)
              | none => loop32 fuel r.1
      else .ret (s, none)
    | _ => .ret (s, none)

/-- The last loop of `Decode`: `for si < len(src)`, one quantum at a time. -/
def loopTail : Nat → DecState → Run (DecState × Option CorruptInputError)
  | 0, _ => .starved
  | fuel + 1, s =>
    match s.rest with
    | [] => .ret (s, none)
    | _ :: _ =>
        (quantumStep s).bind fun r =>
          match r.2 with
          | some e => .ret (r.1, some e)
          | none => loopTail fuel r.1

/-- `Encoding.Decode(dst, src)`: returns the memory of `dst` after the call, the number
`n` of bytes decoded and the error.  Every pass through a loop reads at least one byte
of `src`, so `len(src) + 1` units of fuel are enough for each loop. -/
def Decode (dst src : List Byte) : Run (List Byte × Nat × Option CorruptInputError) :=
  if src.length = 0 then .ret (dst, 0, none)
  else
    (loop64 (src.length + 1) ⟨dst, 0, src, 0⟩).bind fun r1 =>
      match r1.2 with
      | some e => .ret (r1.1.dst, r1.1.n, some e)
      | none =>
        (loop32 (src.length + 1) r1.1).bind fun r2 =>
          match r2.2 with
          | some e => .ret (r2.1.dst, r2.1.n, some e)
          | none =>
            (loopTail (src.length + 1) r2.1).bind fun r3 =>
              .ret (r3.1.dst, r3.1.n, r3.2)

/-! ## The pricer -/

/-- The functions that `Encrypt`, `DecryptRaw` and `Decrypt` call and whose bodies are
not in the translated files.  `md5Sum` is `crypto/md5.Sum`; `ApplyScaleFactor`,
`HmacSum` (a keyed hash run on a stored `hash.Hash` instance, of type `H`) and
`HmacSum2` (a keyed hash run on a raw key) are the package's helpers; `float64` and
`fdiv` are the conversion `float64(x)` of a `uint64` and the division of two `float64`
values, `F` being the type `float64`. -/
structure Env (F H : Type) where
  md5Sum : List Byte → Arr 16
  ApplyScaleFactor : F → F → Arr 8
  HmacSum : H → List Byte → List Byte
  HmacSum2 : List Byte → List Byte → List Byte
  float64 : Nat → F
  fdiv : F → F → F

/-- The struct `DoubleClickPricer` (the field `keyDecodingMode` is read by no method). -/
structure DoubleClickPricer (F H : Type) where
  encryptionKeyRaw : List Byte
  integrityKeyRaw : List Byte
  encryptionKey : H
  integrityKey : H
  scaleFactor : F

variable {F H : Type}

/-- `DoubleClickPricer.Encrypt(seed, price)`: returns the token and the error. -/
def Encrypt (E : Env F H) (dc : DoubleClickPricer F H) (seed : List Byte) (price : F) :
    Run (List Byte × Option Error) := do
  let data := E.ApplyScaleFactor price dc.scaleFactor
  -- Create Initialization Vector from seed
  let iv := E.md5Sum seed
  -- pad = hmac(e_key, iv), first 8 bytes
  let pad ← slice (E.HmacSum dc.encryptionKey iv.val) 0 8
  -- signature = hmac(i_key, data || iv), first 4 bytes
  let signature ← slice (E.HmacSum dc.integrityKey (data.val ++ iv.val)) 0 4
  -- enc_data = pad <xor> data
  let encoded := List.zipWith (fun x y => x ^^^ y) pad data.val
  -- final_message = WebSafeBase64Encode( iv || enc_price || signature )
  pure (EncodeToString ((iv.val ++ encoded) ++ signature), none)

/-- `DoubleClickPricer.DecryptRaw(encryptedPrice, buf)`: returns the price in micros
and the error.  The count returned by `Decode` is dropped (`_, err = …`), and
`decoded := buf` is the scratch buffer as `Decode` left it. -/
def DecryptRaw (E : Env F H) (dc : DoubleClickPricer F H) (encryptedPrice buf : List Byte) :
    Run (Nat × Option Error) :=
  let encryptedPrice := TrimRight encryptedPrice 61
  if encryptedPrice.length ≠ 38 then .ret (0, some Error.ErrWrongSize)
  else
    (Decode buf encryptedPrice).bind fun r =>
      match r.2.2 with
      | some e => .ret (0, some (Error.Corrupt e))
      | none => do
        let decoded := r.1
        -- Get elements
        let iv ← slice decoded 0 16
        let p ← (slice decoded 16 24).bind Uint64
        let signature ← (slice decoded 24 28).bind Uint32
        -- pad = hmac(e_key, iv)
        let pad ← (slice (E.HmacSum2 dc.encryptionKeyRaw iv) 0 8).bind Uint64
        -- priceMicro = p <xor> pad
        let priceInMicros := pad ^^^ p
        let priceMicro ← PutUint64 (List.replicate 8 0) 0 priceInMicros
        -- conf_sig = hmac(i_key, data || iv)
        let confirmationSignature ←
          (slice (E.HmacSum2 dc.integrityKeyRaw (priceMicro ++ iv)) 0 4).bind Uint32
        -- success = (conf_sig == sig)
        if confirmationSignature ≠ signature then pure (0, some Error.ErrWrongSignature)
        else pure (priceInMicros, none)

/-- `DoubleClickPricer.Decrypt(encryptedPrice)`: a fresh 28-byte buffer, `DecryptRaw`,
and the division by the scale factor, done whatever the error is. -/
def Decrypt (E : Env F H) (dc : DoubleClickPricer F H) (encryptedPrice : List Byte) :
    Run (F × Option Error) :=
  let buf : List Byte := List.replicate 28 0
  (DecryptRaw E dc encryptedPrice buf).bind fun r =>
    .ret (E.fdiv (E.float64 r.1) dc.scaleFactor, r.2)

/-! ## Package `doubleclick` -/

/-- The functions of package `helpers` that package `doubleclick` calls; their bodies
are not in the translated files.  `HmacSum(h, buf, buf2)` is a keyed hash run on a stored
`hash.Hash` instance and two buffers, the second of which may be `nil` (the empty list). -/
structure doubleclick.Helpers (F H : Type) where
  ApplyScaleFactor : F → F → Arr 8
  HmacSum : H → List Byte → List Byte → List Byte

/-- The struct `DoubleClickPricer` of package `doubleclick`; it keeps the two key strings
as they were given (the field `keyDecodingMode` is read by no method). -/
structure doubleclick.DoubleClickPricer (F H : Type) where
  encryptionKeyRaw : List Byte
  integrityKeyRaw : List Byte
  encryptionKey : H
  integrityKey : H
  scaleFactor : F
  isDebugMode : Bool

/-- `DoubleClickPricer.Encrypt(seed, price)` of package `doubleclick`; `md5Sum` is
`crypto/md5.Sum`. -/
def doubleclick.Encrypt (md5Sum : List Byte → Arr 16) (P : doubleclick.Helpers F H)
    (dc : doubleclick.DoubleClickPricer F H) (seed : List Byte) (price : F) :
    Run (List Byte × Option Error) := do
  let data := P.ApplyScaleFactor price dc.scaleFactor
  -- Create Initialization Vector from seed
  let iv := md5Sum seed
  -- pad = hmac(e_key, iv), first 8 bytes
  let pad ← slice (P.HmacSum dc.encryptionKey iv.val []) 0 8
  -- signature = hmac(i_key, data || iv), first 4 bytes
  let signature ← slice (P.HmacSum dc.integrityKey data.val iv.val) 0 4
  -- enc_data = pad <xor> data
  let encoded := List.zipWith (fun x y => x ^^^ y) pad data.val
  -- final_message = WebSafeBase64Encode( iv || enc_price || signature )
  pure (EncodeToString ((iv.val ++ encoded) ++ signature), none)

/-- `DoubleClickPricer.DecryptRaw(encryptedPrice, buf)` of package `doubleclick`.  The
package has variables `ErrWrongSize` and `ErrWrongSignature` of its own, made with the
same texts as those of package `pricers`; both pairs are the constructors of `Error`. -/
def doubleclick.DecryptRaw (P : doubleclick.Helpers F H) (dc : doubleclick.DoubleClickPricer F H)
    (encryptedPrice buf : List Byte) : Run (Nat × Option Error) :=
  let encryptedPrice := TrimRight encryptedPrice 61
  if encryptedPrice.length ≠ 38 then .ret (0, some Error.ErrWrongSize)
  else
    (Decode buf encryptedPrice).bind fun r =>
      match r.2.2 with
      | some e => .ret (0, some (Error.Corrupt e))
      | none => do
        let decoded := r.1
        -- Get elements
        let iv ← slice decoded 0 16
        let p ← (slice decoded 16 24).bind Uint64
        let signature ← (slice decoded 24 28).bind Uint32
        -- pad = hmac(e_key, iv)
        let pad ← (slice (P.HmacSum dc.encryptionKey iv []) 0 8).bind Uint64
        -- priceMicro = p <xor> pad
        let priceInMicros := pad ^^^ p
        let priceMicro ← PutUint64 (List.replicate 8 0) 0 priceInMicros
        -- conf_sig = hmac(i_key, data || iv)
        let confirmationSignature ←
          (slice (P.HmacSum dc.integrityKey priceMicro iv) 0 4).bind Uint32
        -- success = (conf_sig == sig)
        if confirmationSignature ≠ signature then pure (0, some Error.ErrWrongSignature)
        else pure (priceInMicros, none)

/-! ## `naaa.go` -/

/-- The index expression `b[i]` read: panics unless `i < len(b)`. -/
def index (b : List Byte) (i : Nat) : Run Byte :=
  match b[i]? with
  | some v => .ret v
  | none => .panic

/-- `Square(pad, p)`: the XOR of the two big-endian 64-bit readings. -/
def Square (pad p : List Byte) : Run Nat := do
  let padLong ← Uint64 pad
  let pLong ← Uint64 p
  let priceInMicros := padLong ^^^ pLong
  pure priceInMicros

/-- The loop `for i := 0; i < 8; i++ { priceMicro[i] = pad[i] ^ p[i] }` of `Square2`,
with `k` passes left to run. -/
def Square2Loop (pad p : List Byte) : Nat → Nat → List Byte → Run (List Byte)
  | 0, _, priceMicro => .ret priceMicro
  | k + 1, i, priceMicro => do
      let a ← index pad i
      let b ← index p i
      let priceMicro ← store priceMicro i (a ^^^ b)
      Square2Loop pad p k (i + 1) priceMicro

/-- `Square2(pad, p)`: the big-endian 64-bit reading of the byte-wise XOR. -/
def Square2 (pad p : List Byte) : Run Nat := do
  let priceMicro ← Square2Loop pad p 8 0 (List.replicate 8 0)
  let priceInMicros ← Uint64 priceMicro
  pure priceInMicros

/-! ## The stored hash instances as state -/

/-- `Encrypt` with the state of the two stored hash instances made explicit.  A
`hash.Hash` is a mutable object: `after h m` is the state in which `HmacSum(h, m)` leaves
the instance `h` (the body of `HmacSum` is not in the translated files).  The result is
the outcome of the call and the pricer as the call leaves it; the fields of the struct
are not assigned, only the two instances they point to change. -/
def EncryptS (after : H → List Byte → H) (E : Env F H) (dc : DoubleClickPricer F H)
    (seed : List Byte) (price : F) : Run (List Byte × Option Error) × DoubleClickPricer F H :=
  let data := E.ApplyScaleFactor price dc.scaleFactor
  let iv := E.md5Sum seed
  let digest1 := E.HmacSum dc.encryptionKey iv.val
  let dc1 := { dc with encryptionKey := after dc.encryptionKey iv.val }
  match slice digest1 0 8 with
  | .ret pad =>
      let digest2 := E.HmacSum dc1.integrityKey (data.val ++ iv.val)
      let dc2 := { dc1 with integrityKey := after dc1.integrityKey (data.val ++ iv.val) }
      match slice digest2 0 4 with
      | .ret signature =>
          let encoded := List.zipWith (fun x y => x ^^^ y) pad data.val
          (.ret (EncodeToString ((iv.val ++ encoded) ++ signature), none), dc2)
      | .panic => (.panic, dc2)
      | .starved => (.starved, dc2)
  | .panic => (.panic, dc1)
  | .starved => (.starved, dc1)

/-- A call of a method of a pricer. -/
inductive Call (F : Type) where
  | Encrypt (seed : List Byte) (price : F)
  | Decrypt (encryptedPrice : List Byte)
  | DecryptRaw (encryptedPrice buf : List Byte)

/-- The pricer after a call: `Encrypt` runs `HmacSum` on the two stored instances;
`Decrypt` and `DecryptRaw` run `HmacSum2` on the raw keys and touch no instance. -/
def afterCall (after : H → List Byte → H) (E : Env F H) (dc : DoubleClickPricer F H) :
    Call F → DoubleClickPricer F H
  | .Encrypt seed price => (EncryptS after E dc seed price).2
  | .Decrypt _ => dc
  | .DecryptRaw _ _ => dc

/-- The pricer after a sequence of calls, one after the other. -/
def afterCalls (after : H → List Byte → H) (E : Env F H) (dc : DoubleClickPricer F H)
    (calls : List (Call F)) : DoubleClickPricer F H :=
  calls.foldl (afterCall after E) dc

/-! ## The keyed hash as the spec describes it -/

/-- Modelled from the spec: the state of a stored keyed-hash instance, the `hash.Hash`
that the helper `CreateHmac` makes and the fields `encryptionKey` and `integrityKey`
point to (the body of the helper is not in the translated files).  By the spec the
primitive "wraps a secret key" and its state "accumulates input before producing
output": the state is the key and the input accumulated so far. -/
structure KeyedHash where
  key : List Byte
  written : List Byte
  deriving DecidableEq

/-- Modelled from the spec: the helper `HmacSum(h, buf)`, whose body is not in the
translated files, with the state of the instance made explicit.  By the spec "each
logical digest computation observes an independent, uncontaminated state", the state
"is mutable across a single compute call (it accumulates input before producing
output)", and the output is `Digest(key, message)`, "a deterministic, keyed
pseudorandom function"; `Digest` is that function.  The result is the digest and the
instance as the call leaves it, the input still accumulated in it. -/
def HmacSumS (Digest : List Byte → List Byte → List Byte) (h : KeyedHash) (buf : List Byte) :
    List Byte × KeyedHash :=
  -- an uncontaminated state: nothing accumulated by an earlier computation is left
  let h1 : KeyedHash := { h with written := [] }
  -- the input is accumulated
  let h2 : KeyedHash := { h1 with written := h1.written ++ buf }
  -- the output is produced
  (Digest h2.key h2.written, h2)

/-- Modelled from the spec: the helper `HmacSum2(key, buf)`, whose body is not in the
translated files: `Digest(key, message)` on the raw key, with no stored instance. -/
def HmacSum2S (Digest : List Byte → List Byte → List Byte) (key buf : List Byte) : List Byte :=
  Digest key buf

/-- The state in which `HmacSum(h, m)` leaves the instance `h`. -/
def specAfter (Digest : List Byte → List Byte → List Byte) (h : KeyedHash) (m : List Byte) :
    KeyedHash :=
  (HmacSumS Digest h m).2

/-- The functions of `E` with the two hash helpers as the spec describes them, the hash
instances being of type `KeyedHash`. -/
def specEnv (Digest : List Byte → List Byte → List Byte) (E : Env F H) : Env F KeyedHash where
  md5Sum := E.md5Sum
  ApplyScaleFactor := E.ApplyScaleFactor
  HmacSum := fun h m => (HmacSumS Digest h m).1
  HmacSum2 := HmacSum2S Digest
  float64 := E.float64
  fdiv := E.fdiv

/-! ## A small instance, to run the definitions -/

/-- A toy digest of 20 bytes: byte `i` is the sum of the key bytes, the message bytes
and `i`, modulo 256. -/
def toyDigest (key msg : List Byte) : List Byte :=
  (List.range 20).map fun i => toByte ((key.map Fin.val).sum + (msg.map Fin.val).sum + i)

/-- A toy 16-byte seed digest: the first 16 bytes of the seed followed by zeros. -/
def toyMd5 (seed : List Byte) : Arr 16 :=
  ⟨(seed ++ List.replicate 16 0).take 16, by simp⟩

/-- An instance of `Env` with natural numbers for prices: the scaled price is
`price * scaleFactor` modulo `2 ^ 64`, a hash instance is its key, and both hash helpers
are `toyDigest`. -/
def toyEnv : Env Nat (List Byte) where
  md5Sum := toyMd5
  ApplyScaleFactor := fun p s => ⟨be64 (p * s % 2 ^ 64), rfl⟩
  HmacSum := toyDigest
  HmacSum2 := toyDigest
  float64 := fun x => x
  fdiv := fun x y => x / y

/-- A pricer for `toyEnv`: keys `[1, 2, 3]` and `[4, 5, 6]`, scale factor 1000000. -/
def toyPricer : DoubleClickPricer Nat (List Byte) where
  encryptionKeyRaw := [1, 2, 3]
  integrityKeyRaw := [4, 5, 6]
  encryptionKey := [1, 2, 3]
  integrityKey := [4, 5, 6]
  scaleFactor := 1000000

/-- The pricer `toyPricer` with another integrity key, `[7, 8, 9]`. -/
def toyPricerI : DoubleClickPricer Nat (List Byte) where
  encryptionKeyRaw := [1, 2, 3]
  integrityKeyRaw := [7, 8, 9]
  encryptionKey := [1, 2, 3]
  integrityKey := [7, 8, 9]
  scaleFactor := 1000000

/-- The helpers of package `doubleclick` for `toyEnv`: the hash of the two buffers is
`toyDigest` of their concatenation. -/
def toyHelpers : doubleclick.Helpers Nat (List Byte) where
  ApplyScaleFactor := fun p s => ⟨be64 (p * s % 2 ^ 64), rfl⟩
  HmacSum := fun h a b => toyDigest h (a ++ b)

/-- The pricer of package `doubleclick` with the keys and scale factor of `toyPricer`. -/
def toyPricer2 : doubleclick.DoubleClickPricer Nat (List Byte) where
  encryptionKeyRaw := [1, 2, 3]
  integrityKeyRaw := [4, 5, 6]
  encryptionKey := [1, 2, 3]
  integrityKey := [4, 5, 6]
  scaleFactor := 1000000
  isDebugMode := false

/-- The pricer `toyPricer` with stored instances of type `KeyedHash`, nothing accumulated
in them. -/
def toyPricerS : DoubleClickPricer Nat KeyedHash where
  encryptionKeyRaw := [1, 2, 3]
  integrityKeyRaw := [4, 5, 6]
  encryptionKey := ⟨[1, 2, 3], []⟩
  integrityKey := ⟨[4, 5, 6], []⟩
  scaleFactor := 1000000

/-! ## Notions used to state the properties -/

/-- The big-endian value of a byte string, as a number. -/
def beNat (l : List Byte) : Nat := l.foldl (fun acc b => acc * 256 + b.val) 0

/-- The bytes that a base64 text made of letters stands for: every letter gives six
bits, most significant first, and the bits left over at the end are dropped. -/
def decodeLetters : List Byte → List Byte
  | c0 :: c1 :: c2 :: c3 :: rest =>
      toByte (decodeMap c0 * 4 + decodeMap c1 / 16) ::
        toByte (decodeMap c1 * 16 + decodeMap c2 / 4) ::
        toByte (decodeMap c2 * 64 + decodeMap c3) :: decodeLetters rest
  | [c0, c1, c2] =>
      [toByte (decodeMap c0 * 4 + decodeMap c1 / 16),
       toByte (decodeMap c1 * 16 + decodeMap c2 / 4)]
  | [c0, c1] => [toByte (decodeMap c0 * 4 + decodeMap c1 / 16)]
  | _ => []

/-- The unpadded URL-safe base64 alphabet: `A-Z`, `a-z`, `0-9`, `-` and `_`. -/
def inAlphabet (c : Byte) : Prop :=
  (65 ≤ c.val ∧ c.val ≤ 90) ∨ (97 ≤ c.val ∧ c.val ≤ 122) ∨ (48 ≤ c.val ∧ c.val ≤ 57) ∨
    c.val = 45 ∨ c.val = 95

instance (c : Byte) : Decidable (inAlphabet c) := by unfold inAlphabet; infer_instance

/-- The number of letters of the alphabet in a text. -/
def letterCount (l : List Byte) : Nat := l.countP (fun c => decide (decodeMap c ≠ 0xff))

/-- A text has a byte that is neither a letter of the alphabet nor `\n` nor `\r`. -/
def hasBad (l : List Byte) : Prop := ∃ c ∈ l, decodeMap c = 0xff ∧ c ≠ 10 ∧ c ≠ 13

/-- The states of `Decode` that leave room in a buffer of `D` bytes for what the letters
still to come decode to, `C` bounding the letters of the whole input. -/
def Roomy (C D : Nat) (s : DecState) : Prop :=
  s.dst.length = D ∧ 4 * s.n + 3 * letterCount s.rest ≤ 3 * C

/-- What a loop of `Decode` guarantees from a roomy state: it returns, the buffer has
its length, and when there is no error the new state is roomy again, has not more input
left, and no bad byte has been read. -/
def LoopPost (C D : Nat) (s : DecState) (res : Run (DecState × Option CorruptInputError)) : Prop :=
  ∃ s1 err, res = .ret (s1, err) ∧ s1.dst.length = D ∧
    (err = none → Roomy C D s1 ∧ s1.rest.length ≤ s.rest.length ∧
      (hasBad s.rest ↔ hasBad s1.rest))

/-- A six-bit value with the same two high bits as `v`, and not `v`. -/
def twin (v : Nat) : Nat := if v % 2 = 0 then v + 1 else v - 1

/-- The text `t` with its last letter replaced by the letter of the twin value. -/
def twinToken (t : List Byte) : List Byte :=
  t.take 37 ++ [encodeChar (twin (decodeMap (t.getD 37 0)))]

/-- Two pricers on which `HmacSum` gives the same digests, with the same scale factor. -/
def SameDigests (E : Env F H) (dc dc1 : DoubleClickPricer F H) : Prop :=
  dc1.scaleFactor = dc.scaleFactor ∧
  (∀ m, E.HmacSum dc1.encryptionKey m = E.HmacSum dc.encryptionKey m) ∧
  (∀ m, E.HmacSum dc1.integrityKey m = E.HmacSum dc.integrityKey m)

/-! ## Concrete inputs -/

/-- The 16-byte `toyMd5` digest of the seed `abc`. -/
def toyIv : List Byte := [97, 98, 99] ++ List.replicate 13 0

/-- The token `YWJjAAAAAAAAAAAAAAAAACwtLi8w1dPzuru8vQ`, which `toyPricer` returns for the
seed `abc` and the price 15. -/
def toyToken : List Byte :=
  [89, 87, 74, 106, 65, 65, 65, 65, 65, 65, 65, 65, 65, 65, 65, 65, 65, 65, 65, 65, 65, 67, 119,
   116, 76, 105, 56, 119, 49, 100, 80, 122, 117, 114, 117, 56, 118, 81]

/-- The 28 bytes that `toyToken` stands for. -/
def toyPayload : List Byte :=
  [97, 98, 99] ++ List.replicate 13 0 ++ [44, 45, 46, 47, 48, 213, 211, 243, 186, 187, 188, 189]

/-- The token `toyToken` with its 37th character `v` replaced by `w`. -/
def toyTampered : List Byte :=
  [89, 87, 74, 106, 65, 65, 65, 65, 65, 65, 65, 65, 65, 65, 65, 65, 65, 65, 65, 65, 65, 67, 119,
   116, 76, 105, 56, 119, 49, 100, 80, 122, 117, 114, 117, 56, 119, 81]

/-- The 28 bytes that `toyTampered` stands for. -/
def toyTamperedPayload : List Byte :=
  [97, 98, 99] ++ List.replicate 13 0 ++ [44, 45, 46, 47, 48, 213, 211, 243, 186, 187, 188, 193]

/-- The token `toyToken` with its last letter `Q` replaced by `R`. -/
def toyTwin : List Byte :=
  [89, 87, 74, 106, 65, 65, 65, 65, 65, 65, 65, 65, 65, 65, 65, 65, 65, 65, 65, 65, 65, 67, 119,
   116, 76, 105, 56, 119, 49, 100, 80, 122, 117, 114, 117, 56, 118, 82]

/-- The 34 letters `AAAAAAAAAAAAAAAAAAAAAAYHCAkKCwz9_w` followed by four `\n`: 38 bytes
that decode, without error, to 25 bytes only. -/
def shortToken : List Byte :=
  [65, 65, 65, 65, 65, 65, 65, 65, 65, 65, 65, 65, 65, 65, 65, 65, 65, 65, 65, 65, 65, 65, 89,
   72, 67, 65, 107, 75, 67, 119, 122, 57, 95, 119, 10, 10, 10, 10]

/-- A scratch buffer whose last two bytes are 1 and 2, as an earlier call can leave it. -/
def usedBuf : List Byte := List.replicate 26 0 ++ [1, 2]

/-- The first 36 letters of `toyToken` followed by two `\n`. -/
def newlineToken : List Byte :=
  [89, 87, 74, 106, 65, 65, 65, 65, 65, 65, 65, 65, 65, 65, 65, 65, 65, 65, 65, 65, 65, 67, 119,
   116, 76, 105, 56, 119, 49, 100, 80, 122, 117, 114, 117, 56, 10, 10]

/-- The token `toyToken` with its sixth letter replaced by `!`. -/
def bangToken : List Byte :=
  [89, 87, 74, 106, 65, 33, 65, 65, 65, 65, 65, 65, 65, 65, 65, 65, 65, 65, 65, 65, 65, 67, 119,
   116, 76, 105, 56, 119, 49, 100, 80, 122, 117, 114, 117, 56, 118, 81]

/-- The token `toyToken` with its last letter replaced by `!`. -/
def lateBangToken : List Byte :=
  [89, 87, 74, 106, 65, 65, 65, 65, 65, 65, 65, 65, 65, 65, 65, 65, 65, 65, 65, 65, 65, 67, 119,
   116, 76, 105, 56, 119, 49, 100, 80, 122, 117, 114, 117, 56, 118, 33]

/-- Four calls on a pricer: `Encrypt` of the seed `abc` and the price 15, `Encrypt` of
the seed `d` and the price 7, and a `Decrypt` and a `DecryptRaw` of `toyToken`. -/
def toyCalls : List (Call Nat) :=
  [Call.Encrypt [97, 98, 99] 15, Call.Encrypt [100] 7, Call.Decrypt toyToken,
    Call.DecryptRaw toyToken (List.replicate 28 0)]

/-! ## Lemmas on outcomes -/

@[simp] theorem Run.ret_bind {α β : Type} (a : α) (f : α → Run β) : (Run.ret a).bind f = f a := rfl
@[simp] theorem Run.panic_bind {α β : Type} (f : α → Run β) : (Run.panic : Run α).bind f = .panic := rfl
@[simp] theorem Run.starved_bind {α β : Type} (f : α → Run β) :
    (Run.starved : Run α).bind f = .starved := rfl
@[simp] theorem Run.bind_eq {α β : Type} (x : Run α) (f : α → Run β) : (x >>= f) = x.bind f := rfl
@[simp] theorem Run.pure_eq {α : Type} (a : α) : (pure a : Run α) = .ret a := rfl

/-! ## Bit arithmetic -/

theorem lor_shl (acc b k : Nat) (h : acc < 2 ^ k) : acc ||| (b <<< k) = acc + b * 2 ^ k := by
  rw [Nat.shiftLeft_eq, Nat.lor_comm, Nat.mul_comm b, ← Nat.mul_add_lt_is_or h, Nat.add_comm]

theorem shl_lor (acc b k : Nat) (h : acc < 2 ^ k) : (b <<< k) ||| acc = b * 2 ^ k + acc := by
  rw [Nat.lor_comm, lor_shl _ _ _ h, Nat.add_comm]

theorem and_63 (x : Nat) : x &&& 0x3F = x % 64 := Nat.and_pow_two_sub_one_eq_mod x 6

@[simp] theorem toByte_val (x : Nat) : (toByte x).val = x % 256 := rfl

@[simp] theorem toByte_fin (b : Byte) : toByte b.val = b := by
  apply Fin.ext; simp [toByte]

theorem xor_val (a b : Byte) : (a ^^^ b).val = a.val ^^^ b.val := by
  show (a.val ^^^ b.val) % 256 = _
  exact Nat.mod_eq_of_lt (Nat.xor_lt_two_pow (n := 8) a.isLt b.isLt)

theorem shiftRight_xor (x y s : Nat) : (x ^^^ y) >>> s = (x >>> s) ^^^ (y >>> s) := by
  apply Nat.eq_of_testBit_eq; intro i; simp [Nat.testBit_xor]

theorem xor_mod_256 (x y : Nat) : (x ^^^ y) % 256 = (x % 256) ^^^ (y % 256) := by
  apply Nat.eq_of_testBit_eq; intro i
  have h := Nat.testBit_mod_two_pow (x ^^^ y) 8 i
  have hx := Nat.testBit_mod_two_pow x 8 i
  have hy := Nat.testBit_mod_two_pow y 8 i
  simp only [Nat.reducePow] at h hx hy
  rw [h, Nat.testBit_xor, Nat.testBit_xor, hx, hy]
  by_cases hi : i < 8 <;> simp [hi]

theorem Uint64_eq (b0 b1 b2 b3 b4 b5 b6 b7 : Byte) (t : List Byte) :
    Uint64 (b0 :: b1 :: b2 :: b3 :: b4 :: b5 :: b6 :: b7 :: t) =
      .ret (beNat [b0, b1, b2, b3, b4, b5, b6, b7]) := by
  simp only [Uint64, beNat, List.foldl]
  rw [lor_shl _ _ 8 (by omega), lor_shl _ _ 16 (by omega), lor_shl _ _ 24 (by omega),
    lor_shl _ _ 32 (by omega), lor_shl _ _ 40 (by omega), lor_shl _ _ 48 (by omega),
    lor_shl _ _ 56 (by omega)]
  congr 1; omega

theorem Uint32_eq (b0 b1 b2 b3 : Byte) (t : List Byte) :
    Uint32 (b0 :: b1 :: b2 :: b3 :: t) = .ret (beNat [b0, b1, b2, b3]) := by
  simp only [Uint32, beNat, List.foldl]
  rw [lor_shl _ _ 8 (by omega), lor_shl _ _ 16 (by omega), lor_shl _ _ 24 (by omega)]
  congr 1; omega

theorem be64_beNat (b0 b1 b2 b3 b4 b5 b6 b7 : Byte) :
    be64 (beNat [b0, b1, b2, b3, b4, b5, b6, b7]) = [b0, b1, b2, b3, b4, b5, b6, b7] := by
  simp only [be64, beNat, List.foldl, Nat.shiftRight_eq_div_pow]
  have e : ∀ (x : Nat) (b : Byte), x % 256 = b.val → toByte x = b := by
    intro x b h; apply Fin.ext; simpa using h
  rw [e _ b0 (by omega), e _ b1 (by omega), e _ b2 (by omega), e _ b3 (by omega),
    e _ b4 (by omega), e _ b5 (by omega), e _ b6 (by omega), e _ b7 (by omega)]

/-! ## Stores -/

theorem storeBytes_length (vs : List Byte) : ∀ (b : List Byte) (off : Nat),
    (storeBytes b off vs).length = b.length := by
  induction vs with
  | nil => intro b off; rfl
  | cons v vs ih => intro b off; simp [storeBytes, ih]

theorem take_succ_set (v : Byte) : ∀ (b : List Byte) (off : Nat), off < b.length →
    (b.set off v).take (off + 1) = b.take off ++ [v] := by
  intro b
  induction b with
  | nil => intro off h; simp at h
  | cons x xs ih =>
    intro off h
    cases off with
    | zero => simp
    | succ k => simp at h; simp [ih k h]

theorem storeBytes_eq (vs : List Byte) : ∀ (b : List Byte) (off : Nat),
    off + vs.length ≤ b.length →
    storeBytes b off vs = b.take off ++ vs ++ b.drop (off + vs.length) := by
  induction vs with
  | nil => intro b off _; simp [storeBytes]
  | cons v vs ih =>
    intro b off h
    simp only [List.length_cons] at h
    rw [storeBytes, ih _ _ (by simp; omega), take_succ_set _ _ _ (by omega),
      List.drop_set_of_lt _ _ (by omega)]
    simp only [List.length_cons, List.append_assoc, List.singleton_append]
    congr 3; omega

/-- Storing into a buffer split as `out ++ t` at offset `len(out)`. -/
theorem storeBytes_append (out t vs : List Byte) (h : vs.length ≤ t.length) :
    storeBytes (out ++ t) out.length vs = (out ++ vs) ++ t.drop vs.length := by
  rw [storeBytes_eq _ _ _ (by simp; omega)]
  simp [List.take_append_eq_append_take, List.drop_append_eq_append_drop]

/-! ## The alphabet -/

theorem decodeMap_cases (c : Byte) : decodeMap c < 64 ∨ decodeMap c = 255 := by
  unfold decodeMap; simp only; split <;> simp_all

theorem decodeMap_encodeChar_fin : ∀ i : Fin 64, decodeMap (encodeChar i.val) = i.val := by
  decide

theorem decodeMap_encodeChar (x : Nat) : decodeMap (encodeChar (x % 64)) = x % 64 :=
  decodeMap_encodeChar_fin ⟨x % 64, Nat.mod_lt _ (by decide)⟩

set_option maxRecDepth 100000 in
theorem letter_iff_alphabet : ∀ c : Byte, decodeMap c < 64 ↔ inAlphabet c := by
  decide

theorem encodeChar_alphabet (x : Nat) : inAlphabet (encodeChar (x % 64)) := by
  rw [← letter_iff_alphabet, decodeMap_encodeChar]; exact Nat.mod_lt _ (by decide)

theorem Encode_alphabet : ∀ (l : List Byte), ∀ c ∈ Encode l, inAlphabet c := by
  intro l
  induction l using Encode.induct with
  | case1 => simp [Encode]
  | case2 a => simp [Encode, and_63, encodeChar_alphabet]
  | case3 a b => simp [Encode, and_63, encodeChar_alphabet]
  | case4 a b c rest ih =>
    intro x hx
    simp only [Encode, and_63, List.mem_cons] at hx
    rcases hx with rfl | rfl | rfl | rfl | hx
    · exact encodeChar_alphabet _
    · exact encodeChar_alphabet _
    · exact encodeChar_alphabet _
    · exact encodeChar_alphabet _
    · exact ih x hx

theorem Encode_length : ∀ (l : List Byte), (Encode l).length = (l.length * 8 + 5) / 6 := by
  intro l
  induction l using Encode.induct with
  | case1 => simp [Encode]
  | case2 a => simp [Encode]
  | case3 a b => simp [Encode]
  | case4 a b c rest ih => simp only [Encode, List.length_cons, ih]; omega

/-! ## Decoding letters -/

theorem toByte_congr (x y : Nat) (h : x % 256 = y % 256) : toByte x = toByte y :=
  Fin.ext h

theorem lor_low (a b i : Nat) (ha : a % 2 ^ i = 0) (hb : b < 2 ^ i) : a ||| b = a + b := by
  have e : a = 2 ^ i * (a / 2 ^ i) := by
    have := Nat.div_add_mod a (2 ^ i); omega
  rw [e, ← Nat.mul_add_lt_is_or hb]

theorem assemble64_letters (v0 v1 v2 v3 v4 v5 v6 v7 : Nat) (h0 : v0 < 64) (h1 : v1 < 64)
    (h2 : v2 < 64) (h3 : v3 < 64) (h4 : v4 < 64) (h5 : v5 < 64) (h6 : v6 < 64) (h7 : v7 < 64) :
    assemble64 v0 v1 v2 v3 v4 v5 v6 v7 =
      some (v0 * 2 ^ 58 + v1 * 2 ^ 52 + v2 * 2 ^ 46 + v3 * 2 ^ 40 + v4 * 2 ^ 34 + v5 * 2 ^ 28 +
        v6 * 2 ^ 22 + v7 * 2 ^ 16) := by
  have hor : (v0 ||| v1 ||| v2 ||| v3 ||| v4 ||| v5 ||| v6 ||| v7) < 2 ^ 6 := by
    repeat' apply Nat.or_lt_two_pow
    all_goals assumption
  unfold assemble64
  rw [if_neg (by omega)]
  simp only [Nat.shiftLeft_eq]
  rw [lor_low (v0 * 2 ^ 58) (v1 * 2 ^ 52) 58 (by omega) (by omega),
    lor_low (v0 * 2 ^ 58 + v1 * 2 ^ 52) (v2 * 2 ^ 46) 52 (by omega) (by omega),
    lor_low (v0 * 2 ^ 58 + v1 * 2 ^ 52 + v2 * 2 ^ 46) (v3 * 2 ^ 40) 46 (by omega) (by omega),
    lor_low (v0 * 2 ^ 58 + v1 * 2 ^ 52 + v2 * 2 ^ 46 + v3 * 2 ^ 40) (v4 * 2 ^ 34) 40
      (by omega) (by omega),
    lor_low (v0 * 2 ^ 58 + v1 * 2 ^ 52 + v2 * 2 ^ 46 + v3 * 2 ^ 40 + v4 * 2 ^ 34) (v5 * 2 ^ 28) 34
      (by omega) (by omega),
    lor_low (v0 * 2 ^ 58 + v1 * 2 ^ 52 + v2 * 2 ^ 46 + v3 * 2 ^ 40 + v4 * 2 ^ 34 + v5 * 2 ^ 28)
      (v6 * 2 ^ 22) 28 (by omega) (by omega),
    lor_low (v0 * 2 ^ 58 + v1 * 2 ^ 52 + v2 * 2 ^ 46 + v3 * 2 ^ 40 + v4 * 2 ^ 34 + v5 * 2 ^ 28 +
      v6 * 2 ^ 22) (v7 * 2 ^ 16) 22 (by omega) (by omega)]

theorem assemble32_letters (v0 v1 v2 v3 : Nat) (h0 : v0 < 64) (h1 : v1 < 64)
    (h2 : v2 < 64) (h3 : v3 < 64) :
    assemble32 v0 v1 v2 v3 = some (v0 * 2 ^ 26 + v1 * 2 ^ 20 + v2 * 2 ^ 14 + v3 * 2 ^ 8) := by
  have hor : (v0 ||| v1 ||| v2 ||| v3) < 2 ^ 6 := by
    repeat' apply Nat.or_lt_two_pow
    all_goals assumption
  unfold assemble32
  rw [if_neg (by omega)]
  simp only [Nat.shiftLeft_eq]
  rw [lor_low (v0 * 2 ^ 26) (v1 * 2 ^ 20) 26 (by omega) (by omega),
    lor_low (v0 * 2 ^ 26 + v1 * 2 ^ 20) (v2 * 2 ^ 14) 20 (by omega) (by omega),
    lor_low (v0 * 2 ^ 26 + v1 * 2 ^ 20 + v2 * 2 ^ 14) (v3 * 2 ^ 8) 14 (by omega) (by omega)]

theorem be64_assembled (v0 v1 v2 v3 v4 v5 v6 v7 : Nat) (_h0 : v0 < 64) (_h1 : v1 < 64)
    (h2 : v2 < 64) (h3 : v3 < 64) (h4 : v4 < 64) (h5 : v5 < 64) (h6 : v6 < 64) (h7 : v7 < 64) :
    be64 (v0 * 2 ^ 58 + v1 * 2 ^ 52 + v2 * 2 ^ 46 + v3 * 2 ^ 40 + v4 * 2 ^ 34 + v5 * 2 ^ 28 +
        v6 * 2 ^ 22 + v7 * 2 ^ 16) =
      [toByte (v0 * 4 + v1 / 16), toByte (v1 * 16 + v2 / 4), toByte (v2 * 64 + v3),
       toByte (v4 * 4 + v5 / 16), toByte (v5 * 16 + v6 / 4), toByte (v6 * 64 + v7), 0, 0] := by
  generalize hD : v0 * 2 ^ 58 + v1 * 2 ^ 52 + v2 * 2 ^ 46 + v3 * 2 ^ 40 + v4 * 2 ^ 34 +
    v5 * 2 ^ 28 + v6 * 2 ^ 22 + v7 * 2 ^ 16 = D
  simp only [be64, Nat.shiftRight_eq_div_pow]
  rw [toByte_congr (D / 2 ^ 56) (v0 * 4 + v1 / 16) (by omega),
    toByte_congr (D / 2 ^ 48) (v1 * 16 + v2 / 4) (by omega),
    toByte_congr (D / 2 ^ 40) (v2 * 64 + v3) (by omega),
    toByte_congr (D / 2 ^ 32) (v4 * 4 + v5 / 16) (by omega),
    toByte_congr (D / 2 ^ 24) (v5 * 16 + v6 / 4) (by omega),
    toByte_congr (D / 2 ^ 16) (v6 * 64 + v7) (by omega),
    toByte_congr (D / 2 ^ 8) 0 (by omega), toByte_congr D 0 (by omega)]
  rfl

theorem be32_assembled (v0 v1 v2 v3 : Nat) (_h0 : v0 < 64) (_h1 : v1 < 64)
    (h2 : v2 < 64) (h3 : v3 < 64) :
    be32 (v0 * 2 ^ 26 + v1 * 2 ^ 20 + v2 * 2 ^ 14 + v3 * 2 ^ 8) =
      [toByte (v0 * 4 + v1 / 16), toByte (v1 * 16 + v2 / 4), toByte (v2 * 64 + v3), 0] := by
  generalize hD : v0 * 2 ^ 26 + v1 * 2 ^ 20 + v2 * 2 ^ 14 + v3 * 2 ^ 8 = D
  simp only [be32, Nat.shiftRight_eq_div_pow]
  rw [toByte_congr (D / 2 ^ 24) (v0 * 4 + v1 / 16) (by omega),
    toByte_congr (D / 2 ^ 16) (v1 * 16 + v2 / 4) (by omega),
    toByte_congr (D / 2 ^ 8) (v2 * 64 + v3) (by omega), toByte_congr D 0 (by omega)]
  rfl

theorem list_len8 (l : List Byte) (h : l.length = 8) :
    ∃ c0 c1 c2 c3 c4 c5 c6 c7, l = [c0, c1, c2, c3, c4, c5, c6, c7] := by
  match l, h with
  | [c0, c1, c2, c3, c4, c5, c6, c7], _ => exact ⟨c0, c1, c2, c3, c4, c5, c6, c7, rfl⟩

theorem list_len4 (l : List Byte) (h : l.length = 4) :
    ∃ c0 c1 c2 c3, l = [c0, c1, c2, c3] := by
  match l, h with
  | [c0, c1, c2, c3], _ => exact ⟨c0, c1, c2, c3, rfl⟩

theorem list_len2 (l : List Byte) (h : l.length = 2) : ∃ c0 c1, l = [c0, c1] := by
  match l, h with
  | [c0, c1], _ => exact ⟨c0, c1, rfl⟩

/-- One pass of the first loop of `Decode` over eight letters. -/
theorem loop64_letters (fuel : Nat) (out t blk rest : List Byte) (n si : Nat)
    (hn : n = out.length) (hb : blk.length = 8) (hl : ∀ c ∈ blk, decodeMap c < 64)
    (ht : 8 ≤ t.length) :
    loop64 (fuel + 1) ⟨out ++ t, n, blk ++ rest, si⟩ =
      loop64 fuel ⟨(out ++ decodeLetters blk) ++ (0 :: 0 :: t.drop 8), n + 6, rest, si + 8⟩ := by
  obtain ⟨c0, c1, c2, c3, c4, c5, c6, c7, rfl⟩ := list_len8 blk hb
  simp only [List.mem_cons, List.mem_singleton, forall_eq_or_imp, forall_eq, List.not_mem_nil,
    IsEmpty.forall_iff, implies_true, and_true] at hl
  obtain ⟨h0, h1, h2, h3, h4, h5, h6, h7⟩ := hl
  subst hn
  simp only [loop64, List.cons_append, List.nil_append, List.length_append]
  rw [if_pos (by omega), assemble64_letters _ _ _ _ _ _ _ _ h0 h1 h2 h3 h4 h5 h6 h7]
  simp only [PutUint64, List.length_append]
  rw [if_pos (by omega), Run.ret_bind, storeBytes_append _ _ _ (by simpa [be64] using ht),
    be64_assembled _ _ _ _ _ _ _ _ h0 h1 h2 h3 h4 h5 h6 h7]
  simp [decodeLetters]

/-- One pass of the second loop of `Decode` over four letters. -/
theorem loop32_letters (fuel : Nat) (out t blk rest : List Byte) (n si : Nat)
    (hn : n = out.length) (hb : blk.length = 4) (hl : ∀ c ∈ blk, decodeMap c < 64)
    (ht : 4 ≤ t.length) :
    loop32 (fuel + 1) ⟨out ++ t, n, blk ++ rest, si⟩ =
      loop32 fuel ⟨(out ++ decodeLetters blk) ++ (0 :: t.drop 4), n + 3, rest, si + 4⟩ := by
  obtain ⟨c0, c1, c2, c3, rfl⟩ := list_len4 blk hb
  simp only [List.mem_cons, List.mem_singleton, forall_eq_or_imp, forall_eq, List.not_mem_nil,
    IsEmpty.forall_iff, implies_true, and_true] at hl
  obtain ⟨h0, h1, h2, h3⟩ := hl
  subst hn
  simp only [loop32, List.cons_append, List.nil_append, List.length_append]
  rw [if_pos (by omega), assemble32_letters _ _ _ _ h0 h1 h2 h3]
  simp only [PutUint32, List.length_append]
  rw [if_pos (by omega), Run.ret_bind, storeBytes_append _ _ _ (by simpa [be32] using ht),
    be32_assembled _ _ _ _ h0 h1 h2 h3]
  simp [decodeLetters]

theorem loop64_short (fuel : Nat) (s : DecState) (h : s.rest.length < 8) :
    loop64 (fuel + 1) s = .ret (s, none) := by
  unfold loop64
  split
  · next heq => rw [heq] at h; simp at h; omega
  · rfl

theorem loop32_short (fuel : Nat) (s : DecState) (h : s.rest.length < 4) :
    loop32 (fuel + 1) s = .ret (s, none) := by
  unfold loop32
  split
  · next heq => rw [heq] at h; simp at h; omega
  · rfl

/-- The last loop of `Decode` over a final quantum of two letters. -/
theorem loopTail_letters2 (fuel : Nat) (out t blk : List Byte) (n si : Nat)
    (hn : n = out.length) (hb : blk.length = 2) (hl : ∀ c ∈ blk, decodeMap c < 64)
    (ht : 1 ≤ t.length) :
    loopTail (fuel + 2) ⟨out ++ t, n, blk, si⟩ =
      .ret (⟨(out ++ decodeLetters blk) ++ t.drop 1, n + 1, [], si + 2⟩, none) := by
  obtain ⟨c0, c1, rfl⟩ := list_len2 blk hb
  simp only [List.mem_cons, List.mem_singleton, forall_eq_or_imp, forall_eq, List.not_mem_nil,
    IsEmpty.forall_iff, implies_true, and_true] at hl
  obtain ⟨h0, h1⟩ := hl
  subst hn
  have e0 : decodeMap c0 ≠ 255 := by omega
  have e1 : decodeMap c1 ≠ 255 := by omega
  have hs : store (out ++ t) out.length
      (toByte ((decodeMap c0 <<< 18 ||| decodeMap c1 <<< 12 ||| 0 <<< 6 ||| 0) >>> 16)) =
      .ret ((out ++ decodeLetters [c0, c1]) ++ t.drop 1) := by
    unfold store
    rw [if_pos (by simp; omega)]
    have := storeBytes_append out t
      [toByte ((decodeMap c0 <<< 18 ||| decodeMap c1 <<< 12 ||| 0 <<< 6 ||| 0) >>> 16)]
      (by simpa using ht)
    simp only [storeBytes, List.length_singleton] at this
    rw [this]
    congr 3
    simp only [decodeLetters, Nat.shiftLeft_eq, Nat.zero_mul, Nat.or_zero,
      Nat.shiftRight_eq_div_pow]
    rw [lor_low (decodeMap c0 * 2 ^ 18) (decodeMap c1 * 2 ^ 12) 18 (by omega) (by omega)]
    congr 1
    apply toByte_congr; omega
  simp only [loopTail, quantumStep, decodeQuantum, readQuantum, ne_eq, e0, e1, not_false_eq_true,
    if_true, List.set, List.getD, List.get?, Option.getD, Nat.reduceLeDiff, if_false,
    OfNat.ofNat_ne_zero, OfNat.ofNat_ne_one, Nat.reduceAdd, Run.bind_eq, Run.pure_eq, hs,
    Run.ret_bind, Nat.reduceEqDiff, zero_add]


theorem decodeLetters_append4 (blk rest : List Byte) (hb : blk.length = 4) :
    decodeLetters (blk ++ rest) = decodeLetters blk ++ decodeLetters rest := by
  obtain ⟨c0, c1, c2, c3, rfl⟩ := list_len4 blk hb
  simp [decodeLetters]

theorem decodeLetters_append8 (blk rest : List Byte) (hb : blk.length = 8) :
    decodeLetters (blk ++ rest) = decodeLetters blk ++ decodeLetters rest := by
  obtain ⟨c0, c1, c2, c3, c4, c5, c6, c7, rfl⟩ := list_len8 blk hb
  simp [decodeLetters]

theorem decodeLetters_length : ∀ (l : List Byte), (decodeLetters l).length = l.length * 6 / 8 := by
  intro l
  induction l using decodeLetters.induct with
  | case1 c0 c1 c2 c3 rest ih => simp only [decodeLetters, List.length_cons, ih]; omega
  | case2 c0 c1 c2 => simp [decodeLetters]
  | case3 c0 c1 => simp [decodeLetters]
  | case4 l h1 h2 h3 =>
    match l with
    | [] => simp [decodeLetters]
    | [_] => simp [decodeLetters]
    | [c0, c1] => exact absurd rfl (h3 c0 c1)
    | [c0, c1, c2] => exact absurd rfl (h2 c0 c1 c2)
    | c0 :: c1 :: c2 :: c3 :: rest => exact absurd rfl (h1 c0 c1 c2 c3 rest)

/-- `Decode` on 38 letters and a buffer of at least 28 bytes: the 28 decoded bytes are
stored at the front of the buffer, the rest of the buffer is as before, the count is 28
and there is no error. -/
theorem Decode_letters38 (buf src : List Byte) (hs : src.length = 38)
    (hl : ∀ c ∈ src, decodeMap c < 64) (hb : 28 ≤ buf.length) :
    Decode buf src = .ret (decodeLetters src ++ buf.drop 28, 28, none) := by
  have split8 : ∀ (l : List Byte), 8 ≤ l.length →
      ∃ a b, l = a ++ b ∧ a.length = 8 ∧ b.length = l.length - 8 :=
    fun l h => ⟨l.take 8, l.drop 8, (List.take_append_drop 8 l).symm, by simp; omega, by simp⟩
  have split4 : ∀ (l : List Byte), 4 ≤ l.length →
      ∃ a b, l = a ++ b ∧ a.length = 4 ∧ b.length = l.length - 4 :=
    fun l h => ⟨l.take 4, l.drop 4, (List.take_append_drop 4 l).symm, by simp; omega, by simp⟩
  obtain ⟨b1, r1, rfl, hb1, hr1⟩ := split8 src (by omega)
  obtain ⟨b2, r2, rfl, hb2, hr2⟩ := split8 r1 (by omega)
  obtain ⟨b3, r3, rfl, hb3, hr3⟩ := split8 r2 (by omega)
  obtain ⟨b4, r4, rfl, hb4, hr4⟩ := split8 r3 (by omega)
  obtain ⟨b5, b6, rfl, hb5, hb6⟩ := split4 r4 (by omega)
  simp only [List.mem_append] at hl
  simp only [List.length_append] at hs hr1 hr2 hr3 hr4 hb6
  have hb6 : b6.length = 2 := by omega
  have hl1 : ∀ c ∈ b1, decodeMap c < 64 := fun c h => hl c (by simp [h])
  have hl2 : ∀ c ∈ b2, decodeMap c < 64 := fun c h => hl c (by simp [h])
  have hl3 : ∀ c ∈ b3, decodeMap c < 64 := fun c h => hl c (by simp [h])
  have hl4 : ∀ c ∈ b4, decodeMap c < 64 := fun c h => hl c (by simp [h])
  have hl5 : ∀ c ∈ b5, decodeMap c < 64 := fun c h => hl c (by simp [h])
  have hl6 : ∀ c ∈ b6, decodeMap c < 64 := fun c h => hl c (by simp [h])
  have hlen : (b1 ++ (b2 ++ (b3 ++ (b4 ++ (b5 ++ b6))))).length = 38 := by
    simp only [List.length_append]; exact hs
  have d1 := decodeLetters_length b1
  have d2 := decodeLetters_length b2
  have d3 := decodeLetters_length b3
  have d4 := decodeLetters_length b4
  have d5 := decodeLetters_length b5
  rw [hb1] at d1; rw [hb2] at d2; rw [hb3] at d3; rw [hb4] at d4; rw [hb5] at d5
  have s1 := loop64_letters 38 [] buf b1 (b2 ++ (b3 ++ (b4 ++ (b5 ++ b6)))) 0 0 rfl hb1 hl1
    (by omega)
  have s2 := loop64_letters 37 ([] ++ decodeLetters b1) (0 :: 0 :: buf.drop 8) b2
    (b3 ++ (b4 ++ (b5 ++ b6))) (0 + 6) (0 + 8) (by simp [d1]) hb2 hl2 (by simp; omega)
  have s3 := loop64_letters 36 (([] ++ decodeLetters b1) ++ decodeLetters b2)
    (0 :: 0 :: (0 :: 0 :: buf.drop 8).drop 8) b3
    (b4 ++ (b5 ++ b6)) (0 + 6 + 6) (0 + 8 + 8) (by simp [d1, d2]) hb3 hl3 (by simp; omega)
  have s4 := loop64_letters 35 ((([] ++ decodeLetters b1) ++ decodeLetters b2) ++ decodeLetters b3)
    (0 :: 0 :: (0 :: 0 :: (0 :: 0 :: buf.drop 8).drop 8).drop 8) b4
    (b5 ++ b6) (0 + 6 + 6 + 6) (0 + 8 + 8 + 8) (by simp [d1, d2, d3]) hb4 hl4 (by simp; omega)
  have s5 := loop64_short 34
    ⟨(((([] ++ decodeLetters b1) ++ decodeLetters b2) ++ decodeLetters b3) ++ decodeLetters b4) ++
      (0 :: 0 :: (0 :: 0 :: (0 :: 0 :: (0 :: 0 :: buf.drop 8).drop 8).drop 8).drop 8),
      0 + 6 + 6 + 6 + 6, b5 ++ b6, 0 + 8 + 8 + 8 + 8⟩ (by simp only [List.length_append]; omega)
  have s6 := loop32_letters 38
    (((([] ++ decodeLetters b1) ++ decodeLetters b2) ++ decodeLetters b3) ++ decodeLetters b4)
    (0 :: 0 :: (0 :: 0 :: (0 :: 0 :: (0 :: 0 :: buf.drop 8).drop 8).drop 8).drop 8) b5 b6
    (0 + 6 + 6 + 6 + 6) (0 + 8 + 8 + 8 + 8) (by simp [d1, d2, d3, d4]) hb5 hl5 (by simp; omega)
  have s7 := loop32_short 37
    ⟨((((([] ++ decodeLetters b1) ++ decodeLetters b2) ++ decodeLetters b3) ++ decodeLetters b4) ++
      decodeLetters b5) ++
      (0 :: (0 :: 0 :: (0 :: 0 :: (0 :: 0 :: (0 :: 0 :: buf.drop 8).drop 8).drop 8).drop 8).drop 4),
      0 + 6 + 6 + 6 + 6 + 3, b6, 0 + 8 + 8 + 8 + 8 + 4⟩ (by simp only []; omega)
  have s8 := loopTail_letters2 37
    ((((([] ++ decodeLetters b1) ++ decodeLetters b2) ++ decodeLetters b3) ++ decodeLetters b4) ++
      decodeLetters b5)
    (0 :: (0 :: 0 :: (0 :: 0 :: (0 :: 0 :: (0 :: 0 :: buf.drop 8).drop 8).drop 8).drop 8).drop 4)
    b6 (0 + 6 + 6 + 6 + 6 + 3) (0 + 8 + 8 + 8 + 8 + 4) (by simp [d1, d2, d3, d4, d5]) hb6 hl6
    (by simp)
  have h64 := s1.trans (s2.trans (s3.trans (s4.trans s5)))
  have h32 := s6.trans s7
  unfold Decode
  rw [if_neg (by omega), hlen]
  change ((loop64 (38 + 1) ⟨[] ++ buf, 0, b1 ++ (b2 ++ (b3 ++ (b4 ++ (b5 ++ b6)))), 0⟩).bind _) = _
  rw [h64, Run.ret_bind]
  simp only []
  rw [h32, Run.ret_bind]
  simp only []
  rw [s8, Run.ret_bind]
  simp only [decodeLetters_append8 _ _ hb1, decodeLetters_append8 _ _ hb2,
    decodeLetters_append8 _ _ hb3, decodeLetters_append8 _ _ hb4, decodeLetters_append4 _ _ hb5,
    List.nil_append, List.append_assoc, List.drop_succ_cons, List.drop_drop, List.drop_zero,
    Nat.reduceAdd]

theorem toByte_of_mod (x : Nat) (b : Byte) (h : x % 256 = b.val) : toByte x = b :=
  Fin.ext h

/-- Decoding what `Encode` wrote gives the bytes back. -/
theorem decodeLetters_Encode : ∀ (l : List Byte), decodeLetters (Encode l) = l := by
  intro l
  induction l using Encode.induct with
  | case1 => simp [Encode, decodeLetters]
  | case2 a =>
    simp only [Encode, decodeLetters, and_63, decodeMap_encodeChar, Nat.shiftLeft_eq,
      Nat.shiftRight_eq_div_pow]
    rw [toByte_of_mod _ a (by omega)]
  | case3 a b =>
    simp only [Encode, decodeLetters, and_63, decodeMap_encodeChar, Nat.shiftLeft_eq,
      Nat.shiftRight_eq_div_pow]
    rw [lor_low (a.val * 2 ^ 16) (b.val * 2 ^ 8) 16 (by omega) (by omega)]
    generalize hD : a.val * 2 ^ 16 + b.val * 2 ^ 8 = D
    rw [toByte_of_mod (D / 2 ^ 18 % 64 * 4 + D / 2 ^ 12 % 64 / 16) a (by omega),
      toByte_of_mod (D / 2 ^ 12 % 64 * 16 + D / 2 ^ 6 % 64 / 4) b (by omega)]
  | case4 a b c rest ih =>
    simp only [Encode, decodeLetters, and_63, decodeMap_encodeChar, Nat.shiftLeft_eq,
      Nat.shiftRight_eq_div_pow, ih]
    rw [lor_low (a.val * 2 ^ 16) (b.val * 2 ^ 8) 16 (by omega) (by omega),
      lor_low (a.val * 2 ^ 16 + b.val * 2 ^ 8) c.val 8 (by omega) (by omega)]
    generalize hD : a.val * 2 ^ 16 + b.val * 2 ^ 8 + c.val = D
    rw [toByte_of_mod (D / 2 ^ 18 % 64 * 4 + D / 2 ^ 12 % 64 / 16) a (by omega),
      toByte_of_mod (D / 2 ^ 12 % 64 * 16 + D / 2 ^ 6 % 64 / 4) b (by omega),
      toByte_of_mod (D / 2 ^ 6 % 64 * 64 + D % 64) c (by omega)]

theorem letters_Encode (l : List Byte) : ∀ c ∈ Encode l, decodeMap c < 64 :=
  fun c h => (letter_iff_alphabet c).2 (Encode_alphabet l c h)

/-- `Decode` undoes `EncodeToString` on a 28-byte payload. -/
theorem Decode_EncodeToString (buf payload : List Byte) (hp : payload.length = 28)
    (hb : 28 ≤ buf.length) :
    Decode buf (EncodeToString payload) = .ret (payload ++ buf.drop 28, 28, none) := by
  unfold EncodeToString
  rw [Decode_letters38 buf (Encode payload) (by rw [Encode_length, hp]) (letters_Encode payload) hb,
    decodeLetters_Encode]

/-! ## Slices and big-endian numbers -/

theorem Uint64_len8 (l : List Byte) (h : l.length = 8) : Uint64 l = .ret (beNat l) := by
  obtain ⟨c0, c1, c2, c3, c4, c5, c6, c7, rfl⟩ := list_len8 l h
  exact Uint64_eq _ _ _ _ _ _ _ _ []

theorem Uint32_len4 (l : List Byte) (h : l.length = 4) : Uint32 l = .ret (beNat l) := by
  obtain ⟨c0, c1, c2, c3, rfl⟩ := list_len4 l h
  exact Uint32_eq _ _ _ _ []

theorem beNat_lt8 (l : List Byte) (h : l.length = 8) : beNat l < 2 ^ 64 := by
  obtain ⟨c0, c1, c2, c3, c4, c5, c6, c7, rfl⟩ := list_len8 l h
  simp only [beNat, List.foldl]; omega

theorem be64_len8 (l : List Byte) (h : l.length = 8) : be64 (beNat l) = l := by
  obtain ⟨c0, c1, c2, c3, c4, c5, c6, c7, rfl⟩ := list_len8 l h
  exact be64_beNat _ _ _ _ _ _ _ _

theorem toByte_xor (x y : Nat) : toByte (x ^^^ y) = toByte x ^^^ toByte y := by
  apply Fin.ext
  rw [xor_val]; simp only [toByte_val]; exact xor_mod_256 x y

theorem be64_xor (x y : Nat) :
    be64 (x ^^^ y) = List.zipWith (fun a b => a ^^^ b) (be64 x) (be64 y) := by
  simp only [be64, shiftRight_xor, toByte_xor, List.zipWith_cons_cons, List.zipWith_nil_left]

theorem byte_xor_cancel (a b : Byte) : a ^^^ (a ^^^ b) = b := by
  apply Fin.ext
  rw [xor_val, xor_val, ← Nat.xor_assoc, Nat.xor_self, Nat.zero_xor]

theorem zipWith_xor_cancel : ∀ (a b : List Byte), a.length = b.length →
    List.zipWith (fun x y => x ^^^ y) a (List.zipWith (fun x y => x ^^^ y) a b) = b := by
  intro a
  induction a with
  | nil => intro b h; cases b with
    | nil => rfl
    | cons _ _ => simp at h
  | cons x xs ih => intro b h; cases b with
    | nil => simp at h
    | cons y ys => simp at h; simp [byte_xor_cancel, ih ys h]

/-- The 64-bit XOR of `DecryptRaw` undoes the byte-wise XOR of `Encrypt`. -/
theorem be64_unpad (pad data : List Byte) (hp : pad.length = 8) (hd : data.length = 8) :
    be64 (beNat pad ^^^ beNat (List.zipWith (fun x y => x ^^^ y) pad data)) = data := by
  rw [be64_xor, be64_len8 pad hp, be64_len8 _ (by simp [hp, hd]), zipWith_xor_cancel pad data
    (by omega)]

theorem slice_front (a t : List Byte) (n : Nat) (h : a.length = n) :
    slice (a ++ t) 0 n = .ret a := by
  unfold slice
  rw [if_pos (by simp; omega)]
  simp [List.take_left' h]

theorem slice_mid (a b t : List Byte) (lo hi : Nat) (ha : a.length = lo)
    (hb : lo + b.length = hi) : slice (a ++ (b ++ t)) lo hi = .ret b := by
  unfold slice
  rw [if_pos (by simp; omega), List.drop_left' ha, List.take_left' (by omega)]

theorem slice_take (l : List Byte) (n : Nat) (h : n ≤ l.length) :
    slice l 0 n = .ret (l.take n) := by
  unfold slice
  rw [if_pos (by omega)]; simp

theorem PutUint64_fresh (v : Nat) : PutUint64 (List.replicate 8 0) 0 v = .ret (be64 v) := by
  simp [PutUint64, storeBytes, be64, List.replicate]

theorem dropWhile_none (c : Byte) : ∀ (l : List Byte), (∀ x ∈ l, x ≠ c) →
    l.dropWhile (fun x => x == c) = l := by
  intro l h
  cases l with
  | nil => rfl
  | cons x xs =>
    have hx : (x == c) = false := by simpa using h x (by simp)
    simp [List.dropWhile, hx]

theorem TrimRight_self (s : List Byte) (c : Byte) (h : ∀ x ∈ s, x ≠ c) : TrimRight s c = s := by
  unfold TrimRight trimRightByte
  rw [dropWhile_none c _ (by simpa using h), List.reverse_reverse]

theorem alphabet_ne_pad (c : Byte) (h : inAlphabet c) : c ≠ 61 := by
  rintro rfl; revert h; decide

/-! ## `Encrypt` and `DecryptRaw`, step by step -/

/-- What `Encrypt` returns once the two digests are long enough to be sliced. -/
theorem Encrypt_eq (E : Env F H) (dc : DoubleClickPricer F H) (seed : List Byte) (price : F)
    (h1 : 8 ≤ (E.HmacSum dc.encryptionKey (E.md5Sum seed).val).length)
    (h2 : 4 ≤ (E.HmacSum dc.integrityKey
      ((E.ApplyScaleFactor price dc.scaleFactor).val ++ (E.md5Sum seed).val)).length) :
    Encrypt E dc seed price =
      .ret (EncodeToString (((E.md5Sum seed).val ++
        List.zipWith (fun x y => x ^^^ y)
          ((E.HmacSum dc.encryptionKey (E.md5Sum seed).val).take 8)
          (E.ApplyScaleFactor price dc.scaleFactor).val) ++
        (E.HmacSum dc.integrityKey
          ((E.ApplyScaleFactor price dc.scaleFactor).val ++ (E.md5Sum seed).val)).take 4), none) := by
  simp only [Encrypt, Run.bind_eq, Run.pure_eq, slice_take _ _ h1, slice_take _ _ h2, Run.ret_bind]

/-- What `DecryptRaw` does after a decoding without error that left `iv ++ c ++ s` in
the first 28 bytes of the buffer. -/
theorem DecryptRaw_decoded (E : Env F H) (dc : DoubleClickPricer F H)
    (encryptedPrice buf iv c s t : List Byte) (n : Nat)
    (hsize : (TrimRight encryptedPrice 61).length = 38)
    (hdec : Decode buf (TrimRight encryptedPrice 61) = .ret (iv ++ (c ++ (s ++ t)), n, none))
    (hiv : iv.length = 16) (hc : c.length = 8) (hs : s.length = 4)
    (h1 : 8 ≤ (E.HmacSum2 dc.encryptionKeyRaw iv).length)
    (h2 : 4 ≤ (E.HmacSum2 dc.integrityKeyRaw
      (be64 (beNat ((E.HmacSum2 dc.encryptionKeyRaw iv).take 8) ^^^ beNat c) ++ iv)).length) :
    DecryptRaw E dc encryptedPrice buf =
      if beNat ((E.HmacSum2 dc.integrityKeyRaw
          (be64 (beNat ((E.HmacSum2 dc.encryptionKeyRaw iv).take 8) ^^^ beNat c) ++ iv)).take 4) ≠
          beNat s
      then .ret (0, some Error.ErrWrongSignature)
      else .ret (beNat ((E.HmacSum2 dc.encryptionKeyRaw iv).take 8) ^^^ beNat c, none) := by
  unfold DecryptRaw
  simp only [hsize, ne_eq, not_true_eq_false, if_false, hdec, Run.ret_bind, Run.bind_eq,
    Run.pure_eq]
  rw [slice_front iv _ 16 hiv, Run.ret_bind, slice_mid iv c _ 16 24 hiv (by omega), Run.ret_bind,
    Uint64_len8 c hc, Run.ret_bind]
  have e : iv ++ (c ++ (s ++ t)) = (iv ++ c) ++ (s ++ t) := by simp
  rw [e, slice_mid (iv ++ c) s t 24 28 (by simp; omega) (by omega), Run.ret_bind,
    Uint32_len4 s hs, Run.ret_bind, slice_take _ _ h1, Run.ret_bind,
    Uint64_len8 _ (by simp; omega), Run.ret_bind, PutUint64_fresh, Run.ret_bind,
    slice_take _ _ h2, Run.ret_bind, Uint32_len4 _ (by simp; omega), Run.ret_bind]

/-! ## The claims -/

/-- C1. Round trip on micro-units: when the hash run on the stored instances (`HmacSum`)
and the hash run on the stored raw keys (`HmacSum2`) are the same function of the
message and every digest has at least 8 bytes, `Encrypt` returns a token without error
and `DecryptRaw` of that token, with any scratch buffer of 28 bytes, returns without
error the 64-bit number whose big-endian bytes are `ApplyScaleFactor(price, scaleFactor)`. -/
theorem DecryptRaw_Encrypt_roundtrip (E : Env F H) (dc : DoubleClickPricer F H)
    (seed : List Byte) (price : F) (buf : List Byte) (hbuf : buf.length = 28)
    (hE : ∀ m, E.HmacSum dc.encryptionKey m = E.HmacSum2 dc.encryptionKeyRaw m)
    (hI : ∀ m, E.HmacSum dc.integrityKey m = E.HmacSum2 dc.integrityKeyRaw m)
    (hlen : ∀ k m, 8 ≤ (E.HmacSum2 k m).length) :
    ∃ token v, Encrypt E dc seed price = .ret (token, none) ∧
      DecryptRaw E dc token buf = .ret (v, none) ∧ v < 2 ^ 64 ∧
      be64 v = (E.ApplyScaleFactor price dc.scaleFactor).val := by
  have hiv := (E.md5Sum seed).property
  have hdata := (E.ApplyScaleFactor price dc.scaleFactor).property
  have hl1 := hlen dc.encryptionKeyRaw (E.md5Sum seed).val
  have hl2 := hlen dc.integrityKeyRaw
    ((E.ApplyScaleFactor price dc.scaleFactor).val ++ (E.md5Sum seed).val)
  have henc := Encrypt_eq E dc seed price (by rw [hE]; exact hl1) (by rw [hI]; omega)
  rw [hE, hI] at henc
  generalize (E.md5Sum seed).val = iv at hiv hl1 hl2 henc
  generalize (E.ApplyScaleFactor price dc.scaleFactor).val = data at hdata hl2 henc
  generalize hpad : (E.HmacSum2 dc.encryptionKeyRaw iv).take 8 = pad at henc
  generalize hsig : (E.HmacSum2 dc.integrityKeyRaw (data ++ iv)).take 4 = sig at henc
  have hpadlen : pad.length = 8 := by rw [← hpad]; simp; omega
  have hsiglen : sig.length = 4 := by rw [← hsig]; simp; omega
  generalize henc' : List.zipWith (fun x y => x ^^^ y) pad data = enc at henc
  have hxlen : enc.length = 8 := by rw [← henc']; simp [hpadlen, hdata]
  have hunpad : be64 (beNat pad ^^^ beNat enc) = data := by
    rw [← henc']; exact be64_unpad pad data hpadlen hdata
  generalize htok : EncodeToString ((iv ++ enc) ++ sig) = token at henc
  have hplen : ((iv ++ enc) ++ sig).length = 28 := by
    simp only [List.length_append, hiv, hxlen, hsiglen]
  have htrim : TrimRight token 61 = token := by
    rw [← htok]
    exact TrimRight_self _ _ fun x hx => alphabet_ne_pad x (Encode_alphabet _ x hx)
  have hsize : token.length = 38 := by
    rw [← htok]; unfold EncodeToString; rw [Encode_length, hplen]
  have hdec : Decode buf token = .ret (iv ++ (enc ++ (sig ++ buf.drop 28)), 28, none) := by
    rw [← htok, Decode_EncodeToString buf _ hplen (by omega)]
    simp only [List.append_assoc]
  have hl3 := hlen dc.integrityKeyRaw (be64 (beNat pad ^^^ beNat enc) ++ iv)
  refine ⟨token, beNat pad ^^^ beNat enc, henc, ?_, ?_, hunpad⟩
  · rw [DecryptRaw_decoded E dc token buf iv enc sig (buf.drop 28) 28 (by rw [htrim]; exact hsize)
      (by rw [htrim]; exact hdec) hiv hxlen hsiglen hl1 (by rw [hpad]; omega)]
    rw [hpad, hunpad, hsig]
    simp
  · exact Nat.xor_lt_two_pow (beNat_lt8 pad hpadlen) (beNat_lt8 _ hxlen)

/-- C1 at a concrete input: the seed `abc` and the price 15 on `toyPricer`. -/
theorem DecryptRaw_Encrypt_roundtrip_witness :
    (List.replicate 28 (0 : Byte)).length = 28 ∧
    (∀ k m, 8 ≤ (toyEnv.HmacSum2 k m).length) ∧
    ∃ token v, Encrypt toyEnv toyPricer [97, 98, 99] 15 = .ret (token, none) ∧
      DecryptRaw toyEnv toyPricer token (List.replicate 28 0) = .ret (v, none) ∧ v < 2 ^ 64 ∧
      be64 v = (toyEnv.ApplyScaleFactor 15 toyPricer.scaleFactor).val :=
  ⟨rfl, fun k m => by simp [toyEnv, toyDigest],
    DecryptRaw_Encrypt_roundtrip toyEnv toyPricer [97, 98, 99] 15 (List.replicate 28 0) rfl
      (fun _ => rfl) (fun _ => rfl) (fun k m => by simp [toyEnv, toyDigest])⟩

theorem Run.bind_eq_ret {α β : Type} (x : Run α) (f : α → Run β) (b : β) :
    x.bind f = .ret b ↔ ∃ a, x = .ret a ∧ f a = .ret b := by
  cases x <;> simp [Run.bind]

/-- C2. Verify-then-accept: for an input whose length without trailing `=` is 38 and
which decodes without error to 28 bytes `iv ‖ c ‖ s` (16, 8 and 4 bytes), `DecryptRaw`
returns `(c XOR pad, nil)` exactly when the first 4 bytes of
`HmacSum2(integrityKey, bigEndian8(c XOR pad) ‖ iv)`, read as a big-endian number, equal
`s` read as a big-endian number, `pad` being the first 8 bytes of
`HmacSum2(encryptionKey, iv)` read as a big-endian number; otherwise it returns
`(0, ErrWrongSignature)`. -/
theorem DecryptRaw_verify_then_accept (E : Env F H) (dc : DoubleClickPricer F H)
    (encryptedPrice buf iv c s t : List Byte)
    (hsize : (TrimRight encryptedPrice 61).length = 38)
    (hdec : Decode buf (TrimRight encryptedPrice 61) = .ret (iv ++ (c ++ (s ++ t)), 28, none))
    (hiv : iv.length = 16) (hc : c.length = 8) (hs : s.length = 4)
    (hlen : ∀ k m, 8 ≤ (E.HmacSum2 k m).length) :
    (DecryptRaw E dc encryptedPrice buf =
        .ret (beNat c ^^^ beNat ((E.HmacSum2 dc.encryptionKeyRaw iv).take 8), none) ↔
      beNat ((E.HmacSum2 dc.integrityKeyRaw
        (be64 (beNat c ^^^ beNat ((E.HmacSum2 dc.encryptionKeyRaw iv).take 8)) ++ iv)).take 4) =
        beNat s) ∧
    (beNat ((E.HmacSum2 dc.integrityKeyRaw
        (be64 (beNat c ^^^ beNat ((E.HmacSum2 dc.encryptionKeyRaw iv).take 8)) ++ iv)).take 4) ≠
        beNat s →
      DecryptRaw E dc encryptedPrice buf = .ret (0, some Error.ErrWrongSignature)) := by
  have h2 := hlen dc.integrityKeyRaw
    (be64 (beNat ((E.HmacSum2 dc.encryptionKeyRaw iv).take 8) ^^^ beNat c) ++ iv)
  rw [DecryptRaw_decoded E dc encryptedPrice buf iv c s t 28 hsize hdec hiv hc hs
    (hlen _ _) (by omega), Nat.xor_comm (beNat c)]
  constructor
  · constructor
    · intro h
      by_contra hne
      rw [if_pos hne] at h
      simp at h
    · intro h; rw [if_neg (by simpa using h)]
  · intro hne; rw [if_pos hne]

set_option maxRecDepth 100000 in
/-- C2 at a concrete input: `toyToken` and a zeroed 28-byte buffer. -/
theorem DecryptRaw_verify_then_accept_witness :
    (TrimRight toyToken 61).length = 38 ∧
    Decode (List.replicate 28 0) (TrimRight toyToken 61) =
      .ret (toyIv ++ ([44, 45, 46, 47, 48, 213, 211, 243] ++ ([186, 187, 188, 189] ++ [])),
        28, none) ∧
    (DecryptRaw toyEnv toyPricer toyToken (List.replicate 28 0) = .ret (15000000, none) ↔
      beNat [186, 187, 188, 189] = beNat [186, 187, 188, 189]) :=
  ⟨by decide, by decide,
    (DecryptRaw_verify_then_accept toyEnv toyPricer toyToken (List.replicate 28 0)
      toyIv [44, 45, 46, 47, 48, 213, 211, 243]
      [186, 187, 188, 189] [] (by decide) (by decide) (by decide) rfl rfl
      (fun k m => by simp [toyEnv, toyDigest])).1⟩

/-- Every error that `DecryptRaw` returns comes with the integer 0. -/
theorem DecryptRaw_error_zero (E : Env F H) (dc : DoubleClickPricer F H)
    (encryptedPrice buf : List Byte) (v : Nat) (e : Error)
    (h : DecryptRaw E dc encryptedPrice buf = .ret (v, some e)) : v = 0 := by
  unfold DecryptRaw at h
  simp only [ne_eq, Run.bind_eq, Run.pure_eq] at h
  split at h
  · simp at h; exact h.1.symm
  · rw [Run.bind_eq_ret] at h
    obtain ⟨r, _, h⟩ := h
    split at h
    · simp at h; exact h.1.symm
    · simp only [Run.bind_eq_ret] at h
      obtain ⟨iv, _, p, _, sg, _, pad, _, pm, _, conf, _, h⟩ := h
      split at h
      · simp at h; exact h.1.symm
      · simp at h

/-- C3. Fail closed: whenever `DecryptRaw` returns a non-nil error the integer returned
with it is 0, for every token and scratch buffer; and whenever `Decrypt` returns a
non-nil error the price returned with it is `float64(0) / scaleFactor`, which is 0 for a
positive scale factor (the hypothesis `hzero`, a fact of IEEE 754 division). -/
theorem DecryptRaw_fail_closed (E : Env F H) (dc : DoubleClickPricer F H)
    (encryptedPrice : List Byte)
    (hzero : E.fdiv (E.float64 0) dc.scaleFactor = E.float64 0) :
    (∀ buf v e, DecryptRaw E dc encryptedPrice buf = .ret (v, some e) → v = 0) ∧
    (∀ p e, Decrypt E dc encryptedPrice = .ret (p, some e) → p = E.float64 0) := by
  refine ⟨fun buf v e h => DecryptRaw_error_zero E dc encryptedPrice buf v e h, ?_⟩
  intro p e h
  unfold Decrypt at h
  simp only [Run.bind_eq_ret] at h
  obtain ⟨⟨v, e1⟩, hr, h⟩ := h
  simp only [Run.ret.injEq, Prod.mk.injEq] at h
  obtain ⟨hp, he⟩ := h
  subst he
  rw [DecryptRaw_error_zero E dc encryptedPrice _ v e hr] at hp
  rw [← hp, hzero]

/-- C3 at a concrete input: a one-letter token is refused with the integer 0. -/
theorem DecryptRaw_fail_closed_witness :
    toyEnv.fdiv (toyEnv.float64 0) toyPricer.scaleFactor = toyEnv.float64 0 ∧
    DecryptRaw toyEnv toyPricer [65] [] = .ret (0, some Error.ErrWrongSize) ∧
    Decrypt toyEnv toyPricer [65] = .ret (0, some Error.ErrWrongSize) ∧
    (∀ buf v e, DecryptRaw toyEnv toyPricer [65] buf = .ret (v, some e) → v = 0) ∧
    (∀ p e, Decrypt toyEnv toyPricer [65] = .ret (p, some e) → p = toyEnv.float64 0) :=
  ⟨rfl, rfl, rfl, DecryptRaw_fail_closed toyEnv toyPricer [65] rfl⟩

/-- `TrimRight` removes a run of `c` from the end, and what is left does not end in `c`. -/
theorem TrimRight_spec (s : List Byte) (c : Byte) :
    (∃ k, s = TrimRight s c ++ List.replicate k c) ∧ (TrimRight s c).getLast? ≠ some c := by
  unfold TrimRight trimRightByte
  constructor
  · refine ⟨(s.reverse.takeWhile (fun x => x == c)).length, ?_⟩
    have h1 : s.reverse.takeWhile (fun x => x == c) =
        List.replicate (s.reverse.takeWhile (fun x => x == c)).length c := by
      rw [List.eq_replicate_iff]
      refine ⟨rfl, fun b hb => ?_⟩
      simpa using List.mem_takeWhile_imp hb
    have h2 := List.takeWhile_append_dropWhile (fun x => x == c) s.reverse
    have h3 : s = (s.reverse.dropWhile (fun x => x == c)).reverse ++
        (s.reverse.takeWhile (fun x => x == c)).reverse := by
      rw [← List.reverse_append, h2, List.reverse_reverse]
    rw [h1, List.reverse_replicate] at h3
    exact h3
  · rw [List.getLast?_reverse]
    have h := List.head?_dropWhile_not (fun x => x == c) s.reverse
    intro hc
    rw [hc] at h
    simp at h

/-- C4. Size enforcement: `DecryptRaw` returns `(0, ErrWrongSize)` exactly when the
input, with all its trailing `=` removed, has a length other than 38 — whatever the
bytes of the input and whatever the scratch buffer; in particular a wrong length with
bytes outside the alphabet gives `ErrWrongSize`, the decoder is not run. -/
theorem DecryptRaw_wrong_size_iff (E : Env F H) (dc : DoubleClickPricer F H)
    (encryptedPrice buf : List Byte) :
    ((∃ k, encryptedPrice = TrimRight encryptedPrice 61 ++ List.replicate k 61) ∧
      (TrimRight encryptedPrice 61).getLast? ≠ some 61) ∧
    (DecryptRaw E dc encryptedPrice buf = .ret (0, some Error.ErrWrongSize) ↔
      (TrimRight encryptedPrice 61).length ≠ 38) := by
  refine ⟨TrimRight_spec encryptedPrice 61, ?_, ?_⟩
  · intro h hlen
    unfold DecryptRaw at h
    simp only [ne_eq, Run.bind_eq, Run.pure_eq, hlen, not_true_eq_false, if_false] at h
    rw [Run.bind_eq_ret] at h
    obtain ⟨r, _, h⟩ := h
    split at h
    · simp at h
    · simp only [Run.bind_eq_ret] at h
      obtain ⟨iv, _, p, _, sg, _, pad, _, pm, _, conf, _, h⟩ := h
      split at h <;> simp at h
  · intro hlen
    unfold DecryptRaw
    simp only [ne_eq, hlen, not_false_eq_true, if_true]

/-- C5. For every pricer, seed (the empty one too) and price, `Encrypt` returns a nil
error and a token of exactly 38 characters, each in the unpadded URL-safe base64
alphabet, none of them `=` — the digests of `HmacSum` having at least 8 bytes, so that
`[:8]` and `[:4]` do not panic. -/
theorem Encrypt_token_shape (E : Env F H) (dc : DoubleClickPricer F H) (seed : List Byte)
    (price : F) (hlen : ∀ h m, 8 ≤ (E.HmacSum h m).length) :
    ∃ token, Encrypt E dc seed price = .ret (token, none) ∧ token.length = 38 ∧
      (∀ c ∈ token, inAlphabet c) ∧ (61 : Byte) ∉ token := by
  have h1 := hlen dc.encryptionKey (E.md5Sum seed).val
  have h2 := hlen dc.integrityKey
    ((E.ApplyScaleFactor price dc.scaleFactor).val ++ (E.md5Sum seed).val)
  refine ⟨_, Encrypt_eq E dc seed price h1 (by omega), ?_, ?_, ?_⟩
  · unfold EncodeToString
    rw [Encode_length]
    simp only [List.length_append, List.length_zipWith, List.length_take,
      (E.md5Sum seed).property, (E.ApplyScaleFactor price dc.scaleFactor).property]
    omega
  · exact Encode_alphabet _
  · intro hmem
    exact alphabet_ne_pad _ (Encode_alphabet _ _ hmem) rfl

/-- C5 at a concrete input: the empty seed and the price 15 on `toyPricer`. -/
theorem Encrypt_token_shape_witness :
    (∀ h m, 8 ≤ (toyEnv.HmacSum h m).length) ∧
    ∃ token, Encrypt toyEnv toyPricer [] 15 = .ret (token, none) ∧ token.length = 38 ∧
      (∀ c ∈ token, inAlphabet c) ∧ (61 : Byte) ∉ token :=
  ⟨fun h m => by simp [toyEnv, toyDigest],
    Encrypt_token_shape toyEnv toyPricer [] 15 (fun h m => by simp [toyEnv, toyDigest])⟩

/-- C6. Payload layout: decoding the token of `Encrypt` into a 28-byte buffer gives,
without error, exactly 28 bytes `b` with `b[0:16]` the MD5 digest of the seed,
`b[16+i] = pad[i] XOR micros[i]` for `i` in `0..7`, where `pad` is the first 8 bytes of
`HmacSum(encryptionKey, b[0:16])` and `micros` is `ApplyScaleFactor(price, scaleFactor)`,
and `b[24:28]` the first 4 bytes of `HmacSum(integrityKey, micros ‖ b[0:16])`. -/
theorem Encrypt_payload_layout (E : Env F H) (dc : DoubleClickPricer F H) (seed : List Byte)
    (price : F) (buf : List Byte) (hbuf : buf.length = 28)
    (hlen : ∀ h m, 8 ≤ (E.HmacSum h m).length) :
    ∃ token b, Encrypt E dc seed price = .ret (token, none) ∧
      Decode buf token = .ret (b, 28, none) ∧ b.length = 28 ∧
      b.take 16 = (E.md5Sum seed).val ∧
      (∀ i, i < 8 → b[16 + i]? =
        some (((E.HmacSum dc.encryptionKey (b.take 16)).take 8).getD i 0 ^^^
          (E.ApplyScaleFactor price dc.scaleFactor).val.getD i 0)) ∧
      b.drop 24 = (E.HmacSum dc.integrityKey
        ((E.ApplyScaleFactor price dc.scaleFactor).val ++ b.take 16)).take 4 := by
  have hiv := (E.md5Sum seed).property
  have hdata := (E.ApplyScaleFactor price dc.scaleFactor).property
  have h1 := hlen dc.encryptionKey (E.md5Sum seed).val
  have h2 := hlen dc.integrityKey
    ((E.ApplyScaleFactor price dc.scaleFactor).val ++ (E.md5Sum seed).val)
  have henc := Encrypt_eq E dc seed price h1 (by omega)
  generalize (E.md5Sum seed).val = iv at hiv h1 h2 henc ⊢
  generalize (E.ApplyScaleFactor price dc.scaleFactor).val = data at hdata h2 henc ⊢
  generalize hpad : (E.HmacSum dc.encryptionKey iv).take 8 = pad at henc
  generalize hsig : (E.HmacSum dc.integrityKey (data ++ iv)).take 4 = sig at henc
  have hpadlen : pad.length = 8 := by rw [← hpad]; simp; omega
  have hsiglen : sig.length = 4 := by rw [← hsig]; simp; omega
  have hxlen : (List.zipWith (fun x y => x ^^^ y) pad data).length = 8 := by
    simp [hpadlen, hdata]
  have hplen : ((iv ++ List.zipWith (fun x y => x ^^^ y) pad data) ++ sig).length = 28 := by
    simp only [List.length_append, hiv, hxlen, hsiglen]
  have hdec := Decode_EncodeToString buf _ hplen (by omega)
  have hdrop : buf.drop 28 = [] := by simp [hbuf]
  rw [hdrop, List.append_nil] at hdec
  have htake : ((iv ++ List.zipWith (fun x y => x ^^^ y) pad data) ++ sig).take 16 = iv := by
    rw [List.append_assoc]; exact List.take_left' hiv
  refine ⟨_, _, henc, hdec, hplen, htake, ?_, ?_⟩
  · intro i hi
    rw [htake, hpad, List.append_assoc, List.getElem?_append_right (by omega),
      List.getElem?_append_left (by rw [hxlen]; omega)]
    obtain ⟨p0, p1, p2, p3, p4, p5, p6, p7, rfl⟩ := list_len8 pad hpadlen
    obtain ⟨d0, d1, d2, d3, d4, d5, d6, d7, rfl⟩ := list_len8 data hdata
    have e : 16 + i - iv.length = i := by omega
    rw [e]
    interval_cases i <;> rfl
  · rw [htake, hsig]
    exact List.drop_left' (by simp only [List.length_append, hiv, hxlen])

/-- C6 at a concrete input: the seed `abc` and the price 15 on `toyPricer`. -/
theorem Encrypt_payload_layout_witness :
    (List.replicate 28 (0 : Byte)).length = 28 ∧
    (∀ h m, 8 ≤ (toyEnv.HmacSum h m).length) ∧
    ∃ token b, Encrypt toyEnv toyPricer [97, 98, 99] 15 = .ret (token, none) ∧
      Decode (List.replicate 28 0) token = .ret (b, 28, none) ∧ b.length = 28 ∧
      b.take 16 = (toyEnv.md5Sum [97, 98, 99]).val ∧
      (∀ i, i < 8 → b[16 + i]? =
        some (((toyEnv.HmacSum toyPricer.encryptionKey (b.take 16)).take 8).getD i 0 ^^^
          (toyEnv.ApplyScaleFactor 15 toyPricer.scaleFactor).val.getD i 0)) ∧
      b.drop 24 = (toyEnv.HmacSum toyPricer.integrityKey
        ((toyEnv.ApplyScaleFactor 15 toyPricer.scaleFactor).val ++ b.take 16)).take 4 :=
  ⟨rfl, fun h m => by simp [toyEnv, toyDigest],
    Encrypt_payload_layout toyEnv toyPricer [97, 98, 99] 15 (List.replicate 28 0) rfl
      (fun h m => by simp [toyEnv, toyDigest])⟩

/-! ## `Decode` on any input -/

theorem letterCount_nil : letterCount [] = 0 := rfl

theorem letterCount_cons_letter (c : Byte) (l : List Byte) (h : decodeMap c ≠ 0xff) :
    letterCount (c :: l) = letterCount l + 1 := by
  simp [letterCount, List.countP_cons, h]

theorem letterCount_cons_other (c : Byte) (l : List Byte) (h : decodeMap c = 0xff) :
    letterCount (c :: l) = letterCount l := by
  simp [letterCount, List.countP_cons, h]

theorem letterCount_le (l : List Byte) : letterCount l ≤ l.length := List.countP_le_length _

theorem hasBad_nil : ¬ hasBad [] := by simp [hasBad]

theorem hasBad_cons_letter (c : Byte) (l : List Byte) (h : decodeMap c ≠ 0xff) :
    hasBad (c :: l) ↔ hasBad l := by
  simp [hasBad, h]

theorem hasBad_cons_newline (c : Byte) (l : List Byte) (h : c = 10 ∨ c = 13) :
    hasBad (c :: l) ↔ hasBad l := by
  unfold hasBad
  constructor
  · rintro ⟨x, hx, h1, h2, h3⟩
    rcases List.mem_cons.1 hx with rfl | hx
    · rcases h with h | h <;> contradiction
    · exact ⟨x, hx, h1, h2, h3⟩
  · rintro ⟨x, hx, h1⟩
    exact ⟨x, List.mem_cons_of_mem _ hx, h1⟩

/-- What the reading loop of `decodeQuantum` has done when it stops. -/
theorem readQuantum_spec : ∀ (rest : List Byte) (j : Nat) (dbuf : List Nat) (si : Nat), j ≤ 4 →
    match readQuantum rest j dbuf si with
    | .stop rest1 _ err =>
        err = none → j = 0 ∧ rest1 = [] ∧ letterCount rest = 0 ∧ ¬ hasBad rest
    | .conv dlen _ rest1 _ =>
        j ≤ dlen ∧ 2 ≤ dlen ∧ dlen ≤ 4 ∧ letterCount rest = letterCount rest1 + (dlen - j) ∧
        rest1.length + (dlen - j) ≤ rest.length ∧ (hasBad rest ↔ hasBad rest1) := by
  intro rest
  induction rest with
  | nil =>
    intro j dbuf si hj
    unfold readQuantum
    by_cases h4 : 4 ≤ j
    · have : j = 4 := by omega
      subst this
      simp
    · rw [if_neg h4]
      by_cases h0 : j = 0
      · rw [if_pos h0]
        exact fun _ => ⟨h0, rfl, letterCount_nil, hasBad_nil⟩
      · rw [if_neg h0]
        by_cases h1 : j = 1
        · rw [if_pos h1]
          intro h; cases h
        · rw [if_neg h1]
          exact ⟨le_refl _, by omega, by omega, by simp, by simp, Iff.rfl⟩
  | cons c rest ih =>
    intro j dbuf si hj
    unfold readQuantum
    by_cases h4 : 4 ≤ j
    · have : j = 4 := by omega
      subst this
      simp
    · rw [if_neg h4]
      by_cases hc : decodeMap c ≠ 0xff
      · rw [if_pos hc]
        have := ih (j + 1) (dbuf.set j (decodeMap c)) (si + 1) (by omega)
        revert this
        cases readQuantum rest (j + 1) (dbuf.set j (decodeMap c)) (si + 1) with
        | stop rest1 si1 err =>
          intro this he
          exact absurd (this he).1 (by omega)
        | conv dlen dbuf1 rest1 si1 =>
          rintro ⟨h1, h2, h3, h5, h6, h7⟩
          refine ⟨by omega, h2, h3, ?_, ?_, ?_⟩
          · rw [letterCount_cons_letter c rest hc, h5]; omega
          · simp only [List.length_cons]; omega
          · rw [hasBad_cons_letter c rest hc]; exact h7
      · rw [if_neg hc]
        have hc' : decodeMap c = 0xff := by simpa using hc
        by_cases hn : c = 10 ∨ c = 13
        · rw [if_pos hn]
          have := ih j dbuf (si + 1) hj
          revert this
          cases readQuantum rest j dbuf (si + 1) with
          | stop rest1 si1 err =>
            intro this he
            obtain ⟨a0, a, b, d⟩ := this he
            refine ⟨a0, a, ?_, ?_⟩
            · rw [letterCount_cons_other c rest hc']; exact b
            · rw [hasBad_cons_newline c rest hn]; exact d
          | conv dlen dbuf1 rest1 si1 =>
            rintro ⟨h1, h2, h3, h5, h6, h7⟩
            refine ⟨h1, h2, h3, ?_, ?_, ?_⟩
            · rw [letterCount_cons_other c rest hc']; exact h5
            · simp only [List.length_cons]; omega
            · rw [hasBad_cons_newline c rest hn]; exact h7
        · rw [if_neg hn]
          intro h; cases h

theorem store_ok (b : List Byte) (i : Nat) (v : Byte) (h : i < b.length) :
    store b i v = .ret (b.set i v) := by
  unfold store; rw [if_pos h]

/-- `decodeQuantum` on a non-empty rest, with room for what the letters still to come
decode to: it does not panic, keeps the length of the buffer and, when it reports no
error, has read at least one byte and none that is bad. -/
theorem decodeQuantum_spec (dst rest : List Byte) (n si C : Nat) (hne : rest ≠ [])
    (hK : 4 * n + 3 * letterCount rest ≤ 3 * C) (hC : C * 6 / 8 ≤ dst.length) :
    ∃ q, decodeQuantum dst n rest si = .ret q ∧ q.dst.length = dst.length ∧
      (q.err = none → 4 * (n + q.n) + 3 * letterCount q.rest ≤ 3 * C ∧
        q.rest.length < rest.length ∧ (hasBad rest ↔ hasBad q.rest)) := by
  have hpos : 0 < rest.length := List.length_pos.2 hne
  have spec := readQuantum_spec rest 0 [0, 0, 0, 0] si (by omega)
  unfold decodeQuantum
  revert spec
  cases readQuantum rest 0 [0, 0, 0, 0] si with
  | stop rest1 si1 err =>
    intro spec
    refine ⟨_, rfl, rfl, ?_⟩
    intro he
    obtain ⟨_, h1, h2, h3⟩ := spec he
    subst h1
    simp only [letterCount_nil, List.length_nil]
    refine ⟨by omega, hpos, ?_⟩
    constructor
    · intro h; exact absurd h h3
    · intro h; exact absurd h hasBad_nil
  | conv dlen dbuf rest1 si1 =>
    rintro ⟨_, h2, h3, h5, h6, h7⟩
    have hd : dlen = 2 ∨ dlen = 3 ∨ dlen = 4 := by omega
    rcases hd with rfl | rfl | rfl
    · simp only [Run.bind_eq, Run.pure_eq]
      rw [store_ok _ _ _ (by omega), Run.ret_bind]
      refine ⟨_, rfl, by simp, ?_⟩
      intro _
      exact ⟨by simp only []; omega, by simp only []; omega, h7⟩
    · simp only [Run.bind_eq, Run.pure_eq]
      rw [store_ok _ _ _ (by omega), Run.ret_bind, store_ok _ _ _ (by simp; omega), Run.ret_bind]
      refine ⟨_, rfl, by simp, ?_⟩
      intro _
      exact ⟨by simp only []; omega, by simp only []; omega, h7⟩
    · simp only [Run.bind_eq, Run.pure_eq]
      rw [store_ok _ _ _ (by omega), Run.ret_bind, store_ok _ _ _ (by simp; omega), Run.ret_bind,
        store_ok _ _ _ (by simp; omega), Run.ret_bind]
      refine ⟨_, rfl, by simp, ?_⟩
      intro _
      exact ⟨by simp only []; omega, by simp only []; omega, h7⟩

theorem quantumStep_spec (C D : Nat) (s : DecState) (hne : s.rest ≠ []) (hs : Roomy C D s)
    (hC : C * 6 / 8 ≤ D) :
    ∃ s1 err, quantumStep s = .ret (s1, err) ∧ s1.dst.length = D ∧
      (err = none → Roomy C D s1 ∧ s1.rest.length < s.rest.length ∧
        (hasBad s.rest ↔ hasBad s1.rest)) := by
  obtain ⟨hD, hK⟩ := hs
  obtain ⟨q, hq, hlen, hrest⟩ := decodeQuantum_spec s.dst s.rest s.n s.si C hne hK (by omega)
  unfold quantumStep
  rw [hq, Run.ret_bind]
  refine ⟨_, _, rfl, by simp only []; omega, ?_⟩
  intro he
  obtain ⟨a, b, c⟩ := hrest he
  exact ⟨⟨by simp only []; omega, a⟩, b, c⟩

set_option maxRecDepth 100000 in
theorem lor_255 : ∀ a, a < 256 → (a ||| 255 = 255 ∧ 255 ||| a = 255) := by decide

/-- The bitwise OR of two table values is `0xff` as soon as one of them is. -/
theorem lor_table (a b : Nat) (ha : a < 64 ∨ a = 255) (hb : b < 64 ∨ b = 255) :
    ((a ||| b) < 64 ∨ (a ||| b) = 255) ∧ ((a ||| b) ≠ 255 → a < 64 ∧ b < 64) := by
  rcases ha with ha | rfl
  · rcases hb with hb | rfl
    · have := Nat.or_lt_two_pow (n := 6) ha hb
      exact ⟨Or.inl this, fun _ => ⟨ha, hb⟩⟩
    · have := (lor_255 a (by omega)).1
      exact ⟨Or.inr this, fun h => absurd this h⟩
  · have hb' : b < 256 := by omega
    have := (lor_255 b hb').2
    exact ⟨Or.inr this, fun h => absurd this h⟩

theorem assemble64_some (c0 c1 c2 c3 c4 c5 c6 c7 : Byte) (dn : Nat)
    (h : assemble64 (decodeMap c0) (decodeMap c1) (decodeMap c2) (decodeMap c3) (decodeMap c4)
      (decodeMap c5) (decodeMap c6) (decodeMap c7) = some dn) :
    decodeMap c0 < 64 ∧ decodeMap c1 < 64 ∧ decodeMap c2 < 64 ∧ decodeMap c3 < 64 ∧
    decodeMap c4 < 64 ∧ decodeMap c5 < 64 ∧ decodeMap c6 < 64 ∧ decodeMap c7 < 64 := by
  unfold assemble64 at h
  split at h
  · cases h
  · next hne =>
    have t1 := lor_table _ _ (decodeMap_cases c0) (decodeMap_cases c1)
    have t2 := lor_table _ _ t1.1 (decodeMap_cases c2)
    have t3 := lor_table _ _ t2.1 (decodeMap_cases c3)
    have t4 := lor_table _ _ t3.1 (decodeMap_cases c4)
    have t5 := lor_table _ _ t4.1 (decodeMap_cases c5)
    have t6 := lor_table _ _ t5.1 (decodeMap_cases c6)
    have t7 := lor_table _ _ t6.1 (decodeMap_cases c7)
    have a7 := t7.2 hne
    have a6 := t6.2 (by omega)
    have a5 := t5.2 (by omega)
    have a4 := t4.2 (by omega)
    have a3 := t3.2 (by omega)
    have a2 := t2.2 (by omega)
    have a1 := t1.2 (by omega)
    exact ⟨a1.1, a1.2, a2.2, a3.2, a4.2, a5.2, a6.2, a7.2⟩

theorem assemble32_some (c0 c1 c2 c3 : Byte) (dn : Nat)
    (h : assemble32 (decodeMap c0) (decodeMap c1) (decodeMap c2) (decodeMap c3) = some dn) :
    decodeMap c0 < 64 ∧ decodeMap c1 < 64 ∧ decodeMap c2 < 64 ∧ decodeMap c3 < 64 := by
  unfold assemble32 at h
  split at h
  · cases h
  · next hne =>
    have t1 := lor_table _ _ (decodeMap_cases c0) (decodeMap_cases c1)
    have t2 := lor_table _ _ t1.1 (decodeMap_cases c2)
    have t3 := lor_table _ _ t2.1 (decodeMap_cases c3)
    have a3 := t3.2 hne
    have a2 := t2.2 (by omega)
    have a1 := t1.2 (by omega)
    exact ⟨a1.1, a1.2, a2.2, a3.2⟩

theorem LoopPost_refl (C D : Nat) (s : DecState) (hs : Roomy C D s) :
    LoopPost C D s (.ret (s, none)) :=
  ⟨s, none, rfl, hs.1, fun _ => ⟨hs, le_refl _, Iff.rfl⟩⟩

/-- Going on with a loop after one pass that read something. -/
theorem LoopPost_step (C D : Nat) (s s1 : DecState)
    (res : Run (DecState × Option CorruptInputError))
    (hlen : s1.rest.length ≤ s.rest.length) (hbad : hasBad s.rest ↔ hasBad s1.rest)
    (h : LoopPost C D s1 res) : LoopPost C D s res := by
  obtain ⟨s2, err, hres, hD, hpost⟩ := h
  refine ⟨s2, err, hres, hD, fun he => ?_⟩
  obtain ⟨a, b, c⟩ := hpost he
  exact ⟨a, by omega, hbad.trans c⟩

theorem hasBad_letters8 (c0 c1 c2 c3 c4 c5 c6 c7 : Byte) (rest : List Byte)
    (h : decodeMap c0 < 64 ∧ decodeMap c1 < 64 ∧ decodeMap c2 < 64 ∧ decodeMap c3 < 64 ∧
      decodeMap c4 < 64 ∧ decodeMap c5 < 64 ∧ decodeMap c6 < 64 ∧ decodeMap c7 < 64) :
    (hasBad (c0 :: c1 :: c2 :: c3 :: c4 :: c5 :: c6 :: c7 :: rest) ↔ hasBad rest) ∧
    letterCount (c0 :: c1 :: c2 :: c3 :: c4 :: c5 :: c6 :: c7 :: rest) = letterCount rest + 8 := by
  obtain ⟨h0, h1, h2, h3, h4, h5, h6, h7⟩ := h
  rw [hasBad_cons_letter _ _ (by omega), hasBad_cons_letter _ _ (by omega),
    hasBad_cons_letter _ _ (by omega), hasBad_cons_letter _ _ (by omega),
    hasBad_cons_letter _ _ (by omega), hasBad_cons_letter _ _ (by omega),
    hasBad_cons_letter _ _ (by omega), hasBad_cons_letter _ _ (by omega),
    letterCount_cons_letter _ _ (by omega), letterCount_cons_letter _ _ (by omega),
    letterCount_cons_letter _ _ (by omega), letterCount_cons_letter _ _ (by omega),
    letterCount_cons_letter _ _ (by omega), letterCount_cons_letter _ _ (by omega),
    letterCount_cons_letter _ _ (by omega), letterCount_cons_letter _ _ (by omega)]
  exact ⟨Iff.rfl, rfl⟩

theorem hasBad_letters4 (c0 c1 c2 c3 : Byte) (rest : List Byte)
    (h : decodeMap c0 < 64 ∧ decodeMap c1 < 64 ∧ decodeMap c2 < 64 ∧ decodeMap c3 < 64) :
    (hasBad (c0 :: c1 :: c2 :: c3 :: rest) ↔ hasBad rest) ∧
    letterCount (c0 :: c1 :: c2 :: c3 :: rest) = letterCount rest + 4 := by
  obtain ⟨h0, h1, h2, h3⟩ := h
  rw [hasBad_cons_letter _ _ (by omega), hasBad_cons_letter _ _ (by omega),
    hasBad_cons_letter _ _ (by omega), hasBad_cons_letter _ _ (by omega),
    letterCount_cons_letter _ _ (by omega), letterCount_cons_letter _ _ (by omega),
    letterCount_cons_letter _ _ (by omega), letterCount_cons_letter _ _ (by omega)]
  exact ⟨Iff.rfl, rfl⟩

theorem loop64_spec (C D : Nat) (hC : C * 6 / 8 ≤ D) : ∀ (fuel : Nat) (s : DecState),
    s.rest.length < fuel → Roomy C D s → LoopPost C D s (loop64 fuel s) := by
  intro fuel
  induction fuel with
  | zero => intro s h; omega
  | succ fuel ih =>
    intro s hfuel hs
    obtain ⟨dst, n, rest, si⟩ := s
    unfold loop64
    simp only []
    split
    · next c0 c1 c2 c3 c4 c5 c6 c7 rest1 =>
      simp only [List.length_cons] at hfuel
      split
      · next hroom =>
        split
        · next dn hdn =>
          have hl := hasBad_letters8 c0 c1 c2 c3 c4 c5 c6 c7 rest1 (assemble64_some _ _ _ _ _ _ _ _ dn hdn)
          obtain ⟨hD, hK⟩ := hs
          simp only [] at hD hK
          unfold PutUint64
          rw [if_pos (by omega), Run.ret_bind]
          refine LoopPost_step C D _ ⟨storeBytes dst n (be64 dn), n + 6, rest1, si + 8⟩ _
            (by simp only [List.length_cons]; omega) hl.1 (ih _ (by simp only []; omega) ⟨?_, ?_⟩)
          · simp only [storeBytes_length]; exact hD
          · simp only []; omega
        · obtain ⟨s1, err, hq, hD1, hpost⟩ := quantumStep_spec C D
            ⟨dst, n, c0 :: c1 :: c2 :: c3 :: c4 :: c5 :: c6 :: c7 :: rest1, si⟩ (by simp) hs hC
          rw [hq, Run.ret_bind]
          cases err with
          | some e => exact ⟨s1, some e, rfl, hD1, fun h => by cases h⟩
          | none =>
            obtain ⟨a, b, c⟩ := hpost rfl
            simp only [List.length_cons] at b
            exact LoopPost_step C D _ s1 _ (by simp only [List.length_cons]; omega) c
              (ih s1 (by omega) a)
      · exact LoopPost_refl C D _ hs
    · exact LoopPost_refl C D _ hs

theorem loop32_spec (C D : Nat) (hC : C * 6 / 8 ≤ D) : ∀ (fuel : Nat) (s : DecState),
    s.rest.length < fuel → Roomy C D s → LoopPost C D s (loop32 fuel s) := by
  intro fuel
  induction fuel with
  | zero => intro s h; omega
  | succ fuel ih =>
    intro s hfuel hs
    obtain ⟨dst, n, rest, si⟩ := s
    unfold loop32
    simp only []
    split
    · next c0 c1 c2 c3 rest1 =>
      simp only [List.length_cons] at hfuel
      split
      · next hroom =>
        split
        · next dn hdn =>
          have hl := hasBad_letters4 c0 c1 c2 c3 rest1 (assemble32_some _ _ _ _ dn hdn)
          obtain ⟨hD, hK⟩ := hs
          simp only [] at hD hK
          unfold PutUint32
          rw [if_pos (by omega), Run.ret_bind]
          refine LoopPost_step C D _ ⟨storeBytes dst n (be32 dn), n + 3, rest1, si + 4⟩ _
            (by simp only [List.length_cons]; omega) hl.1 (ih _ (by simp only []; omega) ⟨?_, ?_⟩)
          · simp only [storeBytes_length]; exact hD
          · simp only []; omega
        · obtain ⟨s1, err, hq, hD1, hpost⟩ := quantumStep_spec C D
            ⟨dst, n, c0 :: c1 :: c2 :: c3 :: rest1, si⟩ (by simp) hs hC
          rw [hq, Run.ret_bind]
          cases err with
          | some e => exact ⟨s1, some e, rfl, hD1, fun h => by cases h⟩
          | none =>
            obtain ⟨a, b, c⟩ := hpost rfl
            simp only [List.length_cons] at b
            exact LoopPost_step C D _ s1 _ (by simp only [List.length_cons]; omega) c
              (ih s1 (by omega) a)
      · exact LoopPost_refl C D _ hs
    · exact LoopPost_refl C D _ hs

/-- The last loop also reads the input to its end when it reports no error. -/
theorem loopTail_spec (C D : Nat) (hC : C * 6 / 8 ≤ D) : ∀ (fuel : Nat) (s : DecState),
    s.rest.length < fuel → Roomy C D s →
    ∃ s1 err, loopTail fuel s = .ret (s1, err) ∧ s1.dst.length = D ∧
      (err = none → Roomy C D s1 ∧ s1.rest = [] ∧ ¬ hasBad s.rest) := by
  intro fuel
  induction fuel with
  | zero => intro s h; omega
  | succ fuel ih =>
    intro s hfuel hs
    obtain ⟨dst, n, rest, si⟩ := s
    unfold loopTail
    simp only []
    split
    · exact ⟨_, none, rfl, hs.1, fun _ => ⟨hs, rfl, hasBad_nil⟩⟩
    · next c rest1 =>
      obtain ⟨s1, err, hq, hD1, hpost⟩ := quantumStep_spec C D ⟨dst, n, c :: rest1, si⟩
        (by simp) hs hC
      rw [hq, Run.ret_bind]
      cases err with
      | some e => exact ⟨s1, some e, rfl, hD1, fun h => by cases h⟩
      | none =>
        obtain ⟨a, b, c1⟩ := hpost rfl
        simp only [] at b c1
        obtain ⟨s2, err2, h2, hD2, hpost2⟩ := ih s1 (by simp only [] at hfuel; omega) a
        refine ⟨s2, err2, h2, hD2, fun he => ?_⟩
        obtain ⟨x, y, z⟩ := hpost2 he
        exact ⟨x, y, fun hb => z (c1.1 hb)⟩

/-- `Decode` into a buffer with room for `len(src) * 6 / 8` bytes returns (no panic, no
loop out of fuel) and keeps the length of the buffer; when it reports no error, the
count is at most three bytes for four letters and the input has no bad byte. -/
theorem Decode_spec (dst src : List Byte) (hroom : src.length * 6 / 8 ≤ dst.length) :
    ∃ d n err, Decode dst src = .ret (d, n, err) ∧ d.length = dst.length ∧
      (err = none → 4 * n ≤ 3 * letterCount src ∧ ¬ hasBad src) := by
  unfold Decode
  by_cases h0 : src.length = 0
  · rw [if_pos h0]
    have : src = [] := List.length_eq_zero.1 h0
    subst this
    exact ⟨dst, 0, none, rfl, rfl, fun _ => ⟨by simp, hasBad_nil⟩⟩
  · rw [if_neg h0]
    have hcnt := letterCount_le src
    have hC : letterCount src * 6 / 8 ≤ dst.length := by omega
    have hs0 : Roomy (letterCount src) dst.length ⟨dst, 0, src, 0⟩ := ⟨rfl, by simp only []; omega⟩
    obtain ⟨s1, e1, h1, hD1, p1⟩ := loop64_spec (letterCount src) dst.length hC (src.length + 1)
      ⟨dst, 0, src, 0⟩ (by simp only []; omega) hs0
    rw [h1, Run.ret_bind]
    cases e1 with
    | some e => exact ⟨_, _, _, rfl, hD1, fun h => by cases h⟩
    | none =>
      obtain ⟨r1, l1, b1⟩ := p1 rfl
      simp only [] at l1 b1
      obtain ⟨s2, e2, h2, hD2, p2⟩ := loop32_spec (letterCount src) dst.length hC
        (src.length + 1) s1 (by omega) r1
      simp only []
      rw [h2, Run.ret_bind]
      cases e2 with
      | some e => exact ⟨_, _, _, rfl, hD2, fun h => by cases h⟩
      | none =>
        obtain ⟨r2, l2, b2⟩ := p2 rfl
        obtain ⟨s3, e3, h3, hD3, p3⟩ := loopTail_spec (letterCount src) dst.length hC
          (src.length + 1) s2 (by omega) r2
        simp only []
        rw [h3, Run.ret_bind]
        refine ⟨_, _, _, rfl, hD3, fun he => ?_⟩
        obtain ⟨r3, l3, b3⟩ := p3 he
        obtain ⟨_, hK⟩ := r3
        rw [l3, letterCount_nil] at hK
        exact ⟨by simp only []; omega, fun hb => b3 (b2.1 (b1.1 hb))⟩

/-- A 38-byte input that `Decode` turns into 28 bytes without error is made of letters. -/
theorem letters_of_Decode28 (buf src d : List Byte) (hs : src.length = 38)
    (hb : 28 ≤ buf.length) (h : Decode buf src = .ret (d, 28, none)) :
    ∀ c ∈ src, decodeMap c < 64 := by
  obtain ⟨d1, n1, e1, h1, _, hp⟩ := Decode_spec buf src (by omega)
  rw [h] at h1
  simp only [Run.ret.injEq, Prod.mk.injEq] at h1
  obtain ⟨_, hn, he⟩ := h1
  subst hn he
  obtain ⟨hK, _⟩ := hp rfl
  have hle := letterCount_le src
  have hall : letterCount src = src.length := by omega
  unfold letterCount at hall
  rw [List.countP_eq_length] at hall
  intro c hc
  have := hall c hc
  rcases decodeMap_cases c with h64 | h255
  · exact h64
  · simp [h255] at this

/-- A 38-byte input with a bad byte makes `Decode` report an error. -/
theorem Decode_bad (buf src : List Byte) (hs : src.length = 38) (hb : 28 ≤ buf.length)
    (hbad : hasBad src) : ∃ d n e, Decode buf src = .ret (d, n, some e) := by
  obtain ⟨d1, n1, e1, h1, _, hp⟩ := Decode_spec buf src (by omega)
  cases e1 with
  | some e => exact ⟨d1, n1, e, h1⟩
  | none => exact absurd hbad (hp rfl).2

theorem beNat_inj4 (a b : List Byte) (ha : a.length = 4) (hb : b.length = 4)
    (h : beNat a = beNat b) : a = b := by
  obtain ⟨a0, a1, a2, a3, rfl⟩ := list_len4 a ha
  obtain ⟨b0, b1, b2, b3, rfl⟩ := list_len4 b hb
  simp only [beNat, List.foldl] at h
  have e0 : a0 = b0 := Fin.ext (by omega)
  have e1 : a1 = b1 := Fin.ext (by omega)
  have e2 : a2 = b2 := Fin.ext (by omega)
  have e3 : a3 = b3 := Fin.ext (by omega)
  rw [e0, e1, e2, e3]

/-- C7. Signature tampering is always rejected: for a token `t` returned by `Encrypt` and
a 38-character `t'` that decodes without error to 28 bytes equal to those of `t` on
`[0:24)` and different on `[24:28)`, `DecryptRaw(t')` returns `(0, ErrWrongSignature)` —
`HmacSum` on the stored instances and `HmacSum2` on the stored raw keys being the same
function, with digests of at least 8 bytes. -/
theorem DecryptRaw_signature_tamper (E : Env F H) (dc : DoubleClickPricer F H)
    (seed : List Byte) (price : F) (t t' buf b b' : List Byte) (hbuf : buf.length = 28)
    (hE : ∀ m, E.HmacSum dc.encryptionKey m = E.HmacSum2 dc.encryptionKeyRaw m)
    (hI : ∀ m, E.HmacSum dc.integrityKey m = E.HmacSum2 dc.integrityKeyRaw m)
    (hlen : ∀ k m, 8 ≤ (E.HmacSum2 k m).length)
    (ht : Encrypt E dc seed price = .ret (t, none))
    (hb : Decode buf t = .ret (b, 28, none))
    (ht' : t'.length = 38)
    (hb' : Decode buf t' = .ret (b', 28, none))
    (hsame : b'.take 24 = b.take 24) (hdiff : b'.drop 24 ≠ b.drop 24) :
    DecryptRaw E dc t' buf = .ret (0, some Error.ErrWrongSignature) := by
  have hiv := (E.md5Sum seed).property
  have hdata := (E.ApplyScaleFactor price dc.scaleFactor).property
  have hl1 := hlen dc.encryptionKeyRaw (E.md5Sum seed).val
  have hl2 := hlen dc.integrityKeyRaw
    ((E.ApplyScaleFactor price dc.scaleFactor).val ++ (E.md5Sum seed).val)
  have henc := Encrypt_eq E dc seed price (by rw [hE]; exact hl1) (by rw [hI]; omega)
  rw [hE, hI, ht] at henc
  generalize (E.md5Sum seed).val = iv at hiv hl1 hl2 henc
  generalize (E.ApplyScaleFactor price dc.scaleFactor).val = data at hdata hl2 henc
  generalize hpad : (E.HmacSum2 dc.encryptionKeyRaw iv).take 8 = pad at henc
  generalize hsig : (E.HmacSum2 dc.integrityKeyRaw (data ++ iv)).take 4 = sig at henc
  have hpadlen : pad.length = 8 := by rw [← hpad]; simp; omega
  have hsiglen : sig.length = 4 := by rw [← hsig]; simp; omega
  generalize henc' : List.zipWith (fun x y => x ^^^ y) pad data = enc at henc
  have hxlen : enc.length = 8 := by rw [← henc']; simp [hpadlen, hdata]
  have hunpad : be64 (beNat pad ^^^ beNat enc) = data := by
    rw [← henc']; exact be64_unpad pad data hpadlen hdata
  have hplen : ((iv ++ enc) ++ sig).length = 28 := by
    simp only [List.length_append, hiv, hxlen, hsiglen]
  have hdrop : buf.drop 28 = [] := by simp [hbuf]
  -- the payload of `t`
  have htok : t = EncodeToString ((iv ++ enc) ++ sig) := by
    simp only [Run.ret.injEq, Prod.mk.injEq, and_true] at henc; exact henc
  have hbeq : b = (iv ++ enc) ++ sig := by
    have := Decode_EncodeToString buf _ hplen (by omega)
    rw [← htok, hb, hdrop, List.append_nil] at this
    simp only [Run.ret.injEq, Prod.mk.injEq, and_true] at this; exact this
  -- the payload of `t'`
  have hlet := letters_of_Decode28 buf t' b' ht' (by omega) hb'
  have htrim : TrimRight t' 61 = t' :=
    TrimRight_self _ _ fun x hx => alphabet_ne_pad x ((letter_iff_alphabet x).1 (hlet x hx))
  have hb'len : b'.length = 28 := by
    have := Decode_letters38 buf t' ht' hlet (by omega)
    rw [hb', hdrop, List.append_nil] at this
    simp only [Run.ret.injEq, Prod.mk.injEq, and_true] at this
    rw [this, decodeLetters_length, ht']
  have hb'eq : b' = iv ++ (enc ++ (b'.drop 24 ++ [])) := by
    have h24 : b.take 24 = iv ++ enc := by
      rw [hbeq]; exact List.take_left' (by simp only [List.length_append, hiv, hxlen])
    have := (List.take_append_drop 24 b').symm
    rw [hsame, h24] at this
    simpa only [List.append_assoc, List.append_nil] using this
  have hs'len : (b'.drop 24).length = 4 := by simp [hb'len]
  have hsne : b'.drop 24 ≠ sig := by
    intro h; apply hdiff; rw [h, hbeq]
    exact (List.drop_left' (by simp only [List.length_append, hiv, hxlen])).symm
  have hl3 := hlen dc.integrityKeyRaw (be64 (beNat pad ^^^ beNat enc) ++ iv)
  rw [DecryptRaw_decoded E dc t' buf iv enc (b'.drop 24) [] 28 (by rw [htrim]; exact ht')
    (by rw [htrim, hb', ← hb'eq]) hiv hxlen hs'len hl1 (by rw [hpad]; omega)]
  rw [hpad, hunpad, hsig, if_pos]
  intro h
  exact hsne (beNat_inj4 _ _ hs'len hsiglen h.symm)

set_option maxRecDepth 100000 in
/-- C7 at a concrete input: `toyToken` and `toyTampered`, whose payloads differ in the
last byte only. -/
theorem DecryptRaw_signature_tamper_witness :
    Encrypt toyEnv toyPricer [97, 98, 99] 15 = .ret (toyToken, none) ∧
    Decode (List.replicate 28 0) toyToken = .ret (toyPayload, 28, none) ∧
    toyTampered.length = 38 ∧
    Decode (List.replicate 28 0) toyTampered = .ret (toyTamperedPayload, 28, none) ∧
    toyTamperedPayload.take 24 = toyPayload.take 24 ∧
    toyTamperedPayload.drop 24 ≠ toyPayload.drop 24 ∧
    DecryptRaw toyEnv toyPricer toyTampered (List.replicate 28 0) =
      .ret (0, some Error.ErrWrongSignature) :=
  ⟨by decide, by decide, by decide, by decide, by decide, by decide,
    DecryptRaw_signature_tamper toyEnv toyPricer [97, 98, 99] 15 toyToken toyTampered
      (List.replicate 28 0) toyPayload toyTamperedPayload rfl (fun _ => rfl) (fun _ => rfl)
      (fun k m => by simp [toyEnv, toyDigest]) (by decide) (by decide) (by decide) (by decide)
      (by decide) (by decide)⟩

set_option maxRecDepth 100000 in
/-- C9, the code at the failing input: `shortToken` has 38 bytes, four of them `\n`, so
`Decode` returns the count 25 and no error; `DecryptRaw` drops the count and reads
`decoded[24:28]`, whose last two bytes are what the scratch buffer held before.  With
`usedBuf` the token is accepted with the value 240, with a zeroed buffer it is refused. -/
theorem DecryptRaw_scratch_leak :
    usedBuf.length = 28 ∧ (List.replicate 28 (0 : Byte)).length = 28 ∧
    Decode usedBuf shortToken =
      .ret (List.replicate 16 0 ++ [6, 7, 8, 9, 10, 11, 12, 253, 255, 0, 1, 2], 25, none) ∧
    DecryptRaw toyEnv toyPricer shortToken usedBuf = .ret (240, none) ∧
    DecryptRaw toyEnv toyPricer shortToken (List.replicate 28 0) =
      .ret (0, some Error.ErrWrongSignature) := by
  refine ⟨by decide, by decide, by decide, by decide, by decide⟩

set_option maxRecDepth 100000 in
/-- C10 fails as stated.  `newlineToken` has 38 bytes, two of them `\n`, which is not in
the alphabet: `DecryptRaw` gets no decoding error, goes on to the signature and returns
`ErrWrongSignature`.  `toyToken` followed by `=` has length 38 once trimmed and holds
`=`, which is not in the alphabet: `DecryptRaw` accepts it.  And with an empty scratch
buffer `lateBangToken`, which ends in `!`, makes the decoder panic on its first store. -/
theorem DecryptRaw_decode_failure_counterexample :
    ((TrimRight newlineToken 61).length = 38 ∧ (∃ c ∈ newlineToken, ¬ inAlphabet c) ∧
      DecryptRaw toyEnv toyPricer newlineToken (List.replicate 28 0) =
        .ret (0, some Error.ErrWrongSignature)) ∧
    ((TrimRight (toyToken ++ [61]) 61).length = 38 ∧ (∃ c ∈ toyToken ++ [61], ¬ inAlphabet c) ∧
      DecryptRaw toyEnv toyPricer (toyToken ++ [61]) (List.replicate 28 0) =
        .ret (15000000, none)) ∧
    ((TrimRight lateBangToken 61).length = 38 ∧ (∃ c ∈ lateBangToken, ¬ inAlphabet c) ∧
      DecryptRaw toyEnv toyPricer lateBangToken [] = .panic) := by
  refine ⟨⟨by decide, ⟨10, by decide, by decide⟩, by decide⟩,
    ⟨by decide, ⟨61, by decide, by decide⟩, by decide⟩,
    ⟨by decide, ⟨33, by decide, by decide⟩, by decide⟩⟩

/-- C10, amended: when the 38 bytes left after removing the trailing `=` hold a byte that
is outside the alphabet and is neither `\n` nor `\r`, `DecryptRaw` with a scratch buffer
of at least 28 bytes returns 0 and a `CorruptInputError` of the decoder (so neither
`ErrWrongSize` nor `ErrWrongSignature`), the same for every pricer and every hash: no
signature is computed. -/
theorem DecryptRaw_decode_failure (F H : Type) (encryptedPrice buf : List Byte)
    (hsize : (TrimRight encryptedPrice 61).length = 38)
    (hbad : ∃ c ∈ TrimRight encryptedPrice 61, ¬ inAlphabet c ∧ c ≠ 10 ∧ c ≠ 13)
    (hbuf : 28 ≤ buf.length) :
    ∃ e, ∀ (E : Env F H) (dc : DoubleClickPricer F H),
      DecryptRaw E dc encryptedPrice buf = .ret (0, some (Error.Corrupt e)) := by
  have hb : hasBad (TrimRight encryptedPrice 61) := by
    obtain ⟨c, hc, h1, h2, h3⟩ := hbad
    refine ⟨c, hc, ?_, h2, h3⟩
    rcases decodeMap_cases c with h | h
    · exact absurd ((letter_iff_alphabet c).1 h) h1
    · exact h
  obtain ⟨d, n, e, hd⟩ := Decode_bad buf _ hsize hbuf hb
  refine ⟨e, fun E dc => ?_⟩
  unfold DecryptRaw
  simp only [hsize, ne_eq, not_true_eq_false, if_false, hd, Run.ret_bind]

set_option maxRecDepth 100000 in
/-- C10, amended, at a concrete input: `bangToken`, which holds a `!`. -/
theorem DecryptRaw_decode_failure_witness :
    (TrimRight bangToken 61).length = 38 ∧
    (∃ c ∈ TrimRight bangToken 61, ¬ inAlphabet c ∧ c ≠ 10 ∧ c ≠ 13) ∧
    ∃ e, ∀ (E : Env Nat (List Byte)) (dc : DoubleClickPricer Nat (List Byte)),
      DecryptRaw E dc bangToken (List.replicate 28 0) = .ret (0, some (Error.Corrupt e)) :=
  ⟨by decide, ⟨33, by decide, by decide, by decide, by decide⟩,
    DecryptRaw_decode_failure Nat (List Byte) bangToken (List.replicate 28 0) (by decide)
      ⟨33, by decide, by decide, by decide, by decide⟩ (by simp)⟩

theorem dropWhile_replicate_append (c : Byte) (l : List Byte) : ∀ (n : Nat),
    (List.replicate n c ++ l).dropWhile (fun x => x == c) = l.dropWhile (fun x => x == c) := by
  intro n
  induction n with
  | zero => simp
  | succ k ih => simp [List.replicate_succ, List.dropWhile, ih]

theorem TrimRight_append_replicate (t : List Byte) (c : Byte) (n : Nat) :
    TrimRight (t ++ List.replicate n c) c = TrimRight t c := by
  unfold TrimRight trimRightByte
  rw [List.reverse_append, List.reverse_replicate, dropWhile_replicate_append]

/-- C11. Trailing padding is ignored: `DecryptRaw` on a token followed by any number of
`=` returns the same integer and the same error as on the token itself, for every token
(ending in `=` or not) and every scratch buffer. -/
theorem DecryptRaw_trailing_padding (E : Env F H) (dc : DoubleClickPricer F H)
    (t buf : List Byte) (n : Nat) :
    DecryptRaw E dc (t ++ List.replicate n 61) buf = DecryptRaw E dc t buf := by
  unfold DecryptRaw
  rw [TrimRight_append_replicate]

/-- C17. `DecryptRaw` is total under its documented precondition: with a scratch buffer
of at least 28 bytes and digests of at least 8 bytes it returns an integer and an error
(or nil) for every input, without panic and without a loop running out of fuel; and so
does `Decrypt`, which brings its own 28-byte buffer. -/
theorem DecryptRaw_total (E : Env F H) (dc : DoubleClickPricer F H)
    (encryptedPrice buf : List Byte) (hbuf : 28 ≤ buf.length)
    (hlen : ∀ k m, 8 ≤ (E.HmacSum2 k m).length) :
    (∃ v e, DecryptRaw E dc encryptedPrice buf = .ret (v, e)) ∧
    (∃ p e, Decrypt E dc encryptedPrice = .ret (p, e)) := by
  have main : ∀ (b : List Byte), 28 ≤ b.length →
      ∃ v e, DecryptRaw E dc encryptedPrice b = .ret (v, e) := by
    intro b hb
    unfold DecryptRaw
    by_cases hsize : (TrimRight encryptedPrice 61).length = 38
    · simp only [hsize, ne_eq, not_true_eq_false, if_false]
      obtain ⟨d, n, err, hd, hdl, _⟩ := Decode_spec b (TrimRight encryptedPrice 61) (by omega)
      rw [hd, Run.ret_bind]
      cases err with
      | some e => exact ⟨_, _, rfl⟩
      | none =>
        simp only [Run.bind_eq, Run.pure_eq]
        have e1 : slice d 0 16 = .ret ((d.drop 0).take (16 - 0)) := by
          unfold slice; rw [if_pos (by omega)]
        have e2 : slice d 16 24 = .ret ((d.drop 16).take (24 - 16)) := by
          unfold slice; rw [if_pos (by omega)]
        have e3 : slice d 24 28 = .ret ((d.drop 24).take (28 - 24)) := by
          unfold slice; rw [if_pos (by omega)]
        rw [e1, Run.ret_bind, e2, Run.ret_bind, Uint64_len8 _ (by simp; omega), Run.ret_bind, e3,
          Run.ret_bind, Uint32_len4 _ (by simp; omega), Run.ret_bind,
          slice_take _ _ (hlen _ _), Run.ret_bind, Uint64_len8 _ (by simp; exact hlen _ _),
          Run.ret_bind, PutUint64_fresh, Run.ret_bind,
          slice_take _ _ (le_trans (by omega) (hlen _ _)), Run.ret_bind,
          Uint32_len4 _ (by simp; exact le_trans (by omega) (hlen _ _)), Run.ret_bind]
        split
        · exact ⟨_, _, rfl⟩
        · exact ⟨_, _, rfl⟩
    · simp only [ne_eq, hsize, not_false_eq_true, if_true]
      exact ⟨_, _, rfl⟩
  refine ⟨main buf hbuf, ?_⟩
  obtain ⟨v, e, h⟩ := main (List.replicate 28 0) (by simp)
  unfold Decrypt
  simp only []
  rw [h, Run.ret_bind]
  exact ⟨_, _, rfl⟩

set_option maxRecDepth 100000 in
/-- C17 at a concrete input: `lateBangToken` and `toyToken` with a 28-byte buffer. -/
theorem DecryptRaw_total_witness :
    28 ≤ (List.replicate 28 (0 : Byte)).length ∧
    DecryptRaw toyEnv toyPricer toyToken (List.replicate 28 0) = .ret (15000000, none) ∧
    (∃ v e, DecryptRaw toyEnv toyPricer lateBangToken (List.replicate 28 0) = .ret (v, e)) ∧
    (∃ p e, Decrypt toyEnv toyPricer lateBangToken = .ret (p, e)) :=
  ⟨by decide, by decide,
    DecryptRaw_total toyEnv toyPricer lateBangToken (List.replicate 28 0) (by decide)
      (fun k m => by simp [toyEnv, toyDigest])⟩

/-! ## The payload of a token of `Encrypt` -/

/-- `Encrypt` returns a token of 38 letters, and `Decode` of the token into a buffer of at
least 28 bytes stores `iv ‖ pad XOR data ‖ signature` at its front. -/
theorem Encrypt_decoded (E : Env F H) (dc : DoubleClickPricer F H) (seed : List Byte) (price : F)
    (buf : List Byte) (hbuf : 28 ≤ buf.length)
    (h1 : 8 ≤ (E.HmacSum dc.encryptionKey (E.md5Sum seed).val).length)
    (h2 : 4 ≤ (E.HmacSum dc.integrityKey
      ((E.ApplyScaleFactor price dc.scaleFactor).val ++ (E.md5Sum seed).val)).length) :
    ∃ token, Encrypt E dc seed price = .ret (token, none) ∧ token.length = 38 ∧
      (∀ c ∈ token, inAlphabet c) ∧
      Decode buf token = .ret ((E.md5Sum seed).val ++
        (List.zipWith (fun x y => x ^^^ y)
          ((E.HmacSum dc.encryptionKey (E.md5Sum seed).val).take 8)
          (E.ApplyScaleFactor price dc.scaleFactor).val ++
        ((E.HmacSum dc.integrityKey
          ((E.ApplyScaleFactor price dc.scaleFactor).val ++ (E.md5Sum seed).val)).take 4 ++
        buf.drop 28)), 28, none) := by
  have hiv := (E.md5Sum seed).property
  have hdata := (E.ApplyScaleFactor price dc.scaleFactor).property
  have hplen : (((E.md5Sum seed).val ++
        List.zipWith (fun x y => x ^^^ y)
          ((E.HmacSum dc.encryptionKey (E.md5Sum seed).val).take 8)
          (E.ApplyScaleFactor price dc.scaleFactor).val) ++
        (E.HmacSum dc.integrityKey
          ((E.ApplyScaleFactor price dc.scaleFactor).val ++ (E.md5Sum seed).val)).take 4).length
      = 28 := by
    simp only [List.length_append, List.length_zipWith, List.length_take, hiv, hdata]
    omega
  refine ⟨_, Encrypt_eq E dc seed price h1 h2, ?_, Encode_alphabet _, ?_⟩
  · unfold EncodeToString; rw [Encode_length, hplen]
  · rw [Decode_EncodeToString buf _ hplen hbuf]
    simp only [List.append_assoc]

theorem beNat_be64 (v : Nat) (h : v < 2 ^ 64) : beNat (be64 v) = v := by
  simp only [be64, beNat, List.foldl, toByte_val, Nat.shiftRight_eq_div_pow]
  omega

/-- `DecryptRaw` accepts an input that decodes to `iv ‖ pad XOR data ‖ signature` made with
the raw keys, and returns the number whose big-endian bytes are `data`. -/
theorem DecryptRaw_accepts (E : Env F H) (dc : DoubleClickPricer F H)
    (encryptedPrice buf iv data rest : List Byte) (n : Nat)
    (hsize : (TrimRight encryptedPrice 61).length = 38)
    (hiv : iv.length = 16) (hdata : data.length = 8)
    (hlen : ∀ k m, 8 ≤ (E.HmacSum2 k m).length)
    (hdec : Decode buf (TrimRight encryptedPrice 61) = .ret (iv ++
      (List.zipWith (fun x y => x ^^^ y) ((E.HmacSum2 dc.encryptionKeyRaw iv).take 8) data ++
      ((E.HmacSum2 dc.integrityKeyRaw (data ++ iv)).take 4 ++ rest)), n, none)) :
    DecryptRaw E dc encryptedPrice buf = .ret (beNat data, none) := by
  have hl1 := hlen dc.encryptionKeyRaw iv
  have hl2 := hlen dc.integrityKeyRaw (data ++ iv)
  have hpadlen : ((E.HmacSum2 dc.encryptionKeyRaw iv).take 8).length = 8 := by simp; omega
  have hsiglen : ((E.HmacSum2 dc.integrityKeyRaw (data ++ iv)).take 4).length = 4 := by
    simp; omega
  have hxlen : (List.zipWith (fun x y => x ^^^ y)
      ((E.HmacSum2 dc.encryptionKeyRaw iv).take 8) data).length = 8 := by
    rw [List.length_zipWith, hpadlen, hdata]; rfl
  have hunpad := be64_unpad _ data hpadlen hdata
  have hval : beNat ((E.HmacSum2 dc.encryptionKeyRaw iv).take 8) ^^^
      beNat (List.zipWith (fun x y => x ^^^ y) ((E.HmacSum2 dc.encryptionKeyRaw iv).take 8) data)
      = beNat data := by
    have hlt := Nat.xor_lt_two_pow (beNat_lt8 _ hpadlen) (beNat_lt8 _ hxlen)
    rw [← beNat_be64 _ hlt, hunpad]
  have hl3 := hlen dc.integrityKeyRaw (data ++ iv)
  rw [DecryptRaw_decoded E dc encryptedPrice buf iv _ _ rest n hsize hdec hiv hxlen hsiglen hl1
    (by rw [hval, be64_len8 data hdata]; omega)]
  rw [hval, be64_len8 data hdata, if_neg (by simp)]

theorem byte_xor_pad (p a b : Byte) : (p ^^^ a) ^^^ (p ^^^ b) = a ^^^ b := by
  apply Fin.ext
  simp only [xor_val]
  apply Nat.eq_of_testBit_eq
  intro i
  simp only [Nat.testBit_xor]
  cases p.val.testBit i <;> cases a.val.testBit i <;> cases b.val.testBit i <;> rfl

theorem zipWith_xor_pad : ∀ (pad a b : List Byte), pad.length = a.length → pad.length = b.length →
    List.zipWith (fun x y => x ^^^ y) (List.zipWith (fun x y => x ^^^ y) pad a)
      (List.zipWith (fun x y => x ^^^ y) pad b) = List.zipWith (fun x y => x ^^^ y) a b := by
  intro pad
  induction pad with
  | nil =>
    intro a b ha hb
    cases a with
    | nil => rfl
    | cons _ _ => simp at ha
  | cons p ps ih =>
    intro a b ha hb
    cases a with
    | nil => simp at ha
    | cons x xs =>
      cases b with
      | nil => simp at hb
      | cons y ys =>
        simp only [List.length_cons, Nat.add_right_cancel_iff] at ha hb
        simp only [List.zipWith_cons_cons, byte_xor_pad, ih xs ys ha hb]

/-- C18. Pad reuse under one seed: for one pricer and one seed, the ciphertext regions
(payload bytes `[16:24)`) of the tokens of two prices XOR byte-wise to
`ApplyScaleFactor(p1, scaleFactor) XOR ApplyScaleFactor(p2, scaleFactor)`, whatever the
encryption key; nothing in `Encrypt` prevents it. -/
theorem Encrypt_pad_reuse (E : Env F H) (dc : DoubleClickPricer F H) (seed : List Byte)
    (p1 p2 : F) (buf : List Byte) (hbuf : buf.length = 28)
    (hlen : ∀ h m, 8 ≤ (E.HmacSum h m).length) :
    ∃ t1 t2 b1 b2, Encrypt E dc seed p1 = .ret (t1, none) ∧ Encrypt E dc seed p2 = .ret (t2, none) ∧
      Decode buf t1 = .ret (b1, 28, none) ∧ Decode buf t2 = .ret (b2, 28, none) ∧
      List.zipWith (fun x y => x ^^^ y) ((b1.drop 16).take 8) ((b2.drop 16).take 8) =
        List.zipWith (fun x y => x ^^^ y) (E.ApplyScaleFactor p1 dc.scaleFactor).val
          (E.ApplyScaleFactor p2 dc.scaleFactor).val := by
  have hiv := (E.md5Sum seed).property
  have hd1 := (E.ApplyScaleFactor p1 dc.scaleFactor).property
  have hd2 := (E.ApplyScaleFactor p2 dc.scaleFactor).property
  have hl := hlen dc.encryptionKey (E.md5Sum seed).val
  obtain ⟨t1, e1, _, _, c1⟩ := Encrypt_decoded E dc seed p1 buf (by omega) hl
    (le_trans (by omega) (hlen _ _))
  obtain ⟨t2, e2, _, _, c2⟩ := Encrypt_decoded E dc seed p2 buf (by omega) hl
    (le_trans (by omega) (hlen _ _))
  refine ⟨t1, t2, _, _, e1, e2, c1, c2, ?_⟩
  have hpl : ((E.HmacSum dc.encryptionKey (E.md5Sum seed).val).take 8).length = 8 := by
    simp; omega
  rw [List.drop_left' hiv, List.drop_left' hiv, List.take_left' (by simp [hpl, hd1]),
    List.take_left' (by simp [hpl, hd2])]
  exact zipWith_xor_pad _ _ _ (by rw [hpl, hd1]) (by rw [hpl, hd2])

/-- C18 at a concrete input: the seed `abc` and the prices 15 and 16 on `toyPricer`. -/
theorem Encrypt_pad_reuse_witness :
    (List.replicate 28 (0 : Byte)).length = 28 ∧
    ∃ t1 t2 b1 b2, Encrypt toyEnv toyPricer [97, 98, 99] 15 = .ret (t1, none) ∧
      Encrypt toyEnv toyPricer [97, 98, 99] 16 = .ret (t2, none) ∧
      Decode (List.replicate 28 0) t1 = .ret (b1, 28, none) ∧
      Decode (List.replicate 28 0) t2 = .ret (b2, 28, none) ∧
      List.zipWith (fun x y => x ^^^ y) ((b1.drop 16).take 8) ((b2.drop 16).take 8) =
        List.zipWith (fun x y => x ^^^ y) (toyEnv.ApplyScaleFactor 15 toyPricer.scaleFactor).val
          (toyEnv.ApplyScaleFactor 16 toyPricer.scaleFactor).val :=
  ⟨rfl, Encrypt_pad_reuse toyEnv toyPricer [97, 98, 99] 15 16 (List.replicate 28 0) rfl
    (fun h m => by simp [toyEnv, toyDigest])⟩

/-- C14. Key roles are separate.  For one seed, the payloads of the tokens of two pricers
(and two prices) agree on bytes `[0:16)`: the IV depends on the seed alone.  When the two
pricers have the same encryption key and scale factor and the price is the same, the
payloads agree on bytes `[0:24)`, whatever the integrity keys; when they have the same
integrity key and scale factor and the price is the same, the payloads agree on bytes
`[0:16)` and `[24:28)`, whatever the encryption keys. -/
theorem Encrypt_key_roles (E : Env F H) (dc1 dc2 : DoubleClickPricer F H) (seed : List Byte)
    (p1 p2 : F) (buf : List Byte) (hbuf : buf.length = 28)
    (hlen : ∀ h m, 8 ≤ (E.HmacSum h m).length) :
    ∃ t1 t2 b1 b2, Encrypt E dc1 seed p1 = .ret (t1, none) ∧
      Encrypt E dc2 seed p2 = .ret (t2, none) ∧
      Decode buf t1 = .ret (b1, 28, none) ∧ Decode buf t2 = .ret (b2, 28, none) ∧
      b1.take 16 = b2.take 16 ∧
      (p1 = p2 → dc1.scaleFactor = dc2.scaleFactor → dc1.encryptionKey = dc2.encryptionKey →
        b1.take 24 = b2.take 24) ∧
      (p1 = p2 → dc1.scaleFactor = dc2.scaleFactor → dc1.integrityKey = dc2.integrityKey →
        b1.take 16 = b2.take 16 ∧ b1.drop 24 = b2.drop 24) := by
  have hiv := (E.md5Sum seed).property
  have hd1 := (E.ApplyScaleFactor p1 dc1.scaleFactor).property
  have hd2 := (E.ApplyScaleFactor p2 dc2.scaleFactor).property
  have hpl1 : ((E.HmacSum dc1.encryptionKey (E.md5Sum seed).val).take 8).length = 8 := by
    have := hlen dc1.encryptionKey (E.md5Sum seed).val
    simp; omega
  have hpl2 : ((E.HmacSum dc2.encryptionKey (E.md5Sum seed).val).take 8).length = 8 := by
    have := hlen dc2.encryptionKey (E.md5Sum seed).val
    simp; omega
  obtain ⟨t1, e1, _, _, c1⟩ := Encrypt_decoded E dc1 seed p1 buf (by omega) (hlen _ _)
    (le_trans (by omega) (hlen _ _))
  obtain ⟨t2, e2, _, _, c2⟩ := Encrypt_decoded E dc2 seed p2 buf (by omega) (hlen _ _)
    (le_trans (by omega) (hlen _ _))
  have hx1 : (List.zipWith (fun x y => x ^^^ y)
      ((E.HmacSum dc1.encryptionKey (E.md5Sum seed).val).take 8)
      (E.ApplyScaleFactor p1 dc1.scaleFactor).val).length = 8 := by simp [hpl1, hd1]
  have hx2 : (List.zipWith (fun x y => x ^^^ y)
      ((E.HmacSum dc2.encryptionKey (E.md5Sum seed).val).take 8)
      (E.ApplyScaleFactor p2 dc2.scaleFactor).val).length = 8 := by simp [hpl2, hd2]
  have h16 : ∀ (x : List Byte), ((E.md5Sum seed).val ++ x).take 16 = (E.md5Sum seed).val :=
    fun x => List.take_left' hiv
  refine ⟨t1, t2, _, _, e1, e2, c1, c2, ?_, ?_, ?_⟩
  · rw [h16, h16]
  · intro hp hs hk
    subst hp
    rw [← List.append_assoc, ← List.append_assoc (E.md5Sum seed).val,
      List.take_left' (by simp only [List.length_append, hiv, hx1]),
      List.take_left' (by simp only [List.length_append, hiv, hx2]), hs, hk]
  · intro hp hs hk
    subst hp
    refine ⟨by rw [h16, h16], ?_⟩
    rw [← List.append_assoc, ← List.append_assoc (E.md5Sum seed).val,
      List.drop_left' (by simp only [List.length_append, hiv, hx1]),
      List.drop_left' (by simp only [List.length_append, hiv, hx2]), hs, hk]

/-- C14 at a concrete input: `toyPricer` and `toyPricerI`, which differ in the integrity
key only, with the seed `abc` and the price 15. -/
theorem Encrypt_key_roles_witness :
    (List.replicate 28 (0 : Byte)).length = 28 ∧
    toyPricer.encryptionKey = toyPricerI.encryptionKey ∧
    toyPricer.integrityKey ≠ toyPricerI.integrityKey ∧
    ∃ t1 t2 b1 b2, Encrypt toyEnv toyPricer [97, 98, 99] 15 = .ret (t1, none) ∧
      Encrypt toyEnv toyPricerI [97, 98, 99] 15 = .ret (t2, none) ∧
      Decode (List.replicate 28 0) t1 = .ret (b1, 28, none) ∧
      Decode (List.replicate 28 0) t2 = .ret (b2, 28, none) ∧
      b1.take 16 = b2.take 16 ∧
      ((15 : Nat) = 15 → toyPricer.scaleFactor = toyPricerI.scaleFactor →
        toyPricer.encryptionKey = toyPricerI.encryptionKey → b1.take 24 = b2.take 24) ∧
      ((15 : Nat) = 15 → toyPricer.scaleFactor = toyPricerI.scaleFactor →
        toyPricer.integrityKey = toyPricerI.integrityKey →
        b1.take 16 = b2.take 16 ∧ b1.drop 24 = b2.drop 24) :=
  ⟨rfl, rfl, by decide,
    Encrypt_key_roles toyEnv toyPricer toyPricerI [97, 98, 99] 15 15 (List.replicate 28 0) rfl
      (fun h m => by simp [toyEnv, toyDigest])⟩

/-! ## `Square` and `Square2` -/

theorem list_ge8 (l : List Byte) (h : 8 ≤ l.length) :
    ∃ c0 c1 c2 c3 c4 c5 c6 c7 t, l = c0 :: c1 :: c2 :: c3 :: c4 :: c5 :: c6 :: c7 :: t := by
  match l, h with
  | c0 :: c1 :: c2 :: c3 :: c4 :: c5 :: c6 :: c7 :: t, _ =>
    exact ⟨c0, c1, c2, c3, c4, c5, c6, c7, t, rfl⟩

/-- The 64-bit XOR of two big-endian readings is the reading of the byte-wise XOR. -/
theorem beNat_xor8 (a b : List Byte) (ha : a.length = 8) (hb : b.length = 8) :
    beNat a ^^^ beNat b = beNat (List.zipWith (fun x y => x ^^^ y) a b) := by
  have hlt := Nat.xor_lt_two_pow (beNat_lt8 a ha) (beNat_lt8 b hb)
  rw [← beNat_be64 _ hlt, be64_xor, be64_len8 a ha, be64_len8 b hb]

/-- C19. `Square` and `Square2` compute the same function: for two byte slices of at
least 8 bytes both return, without panic, the XOR of the big-endian 64-bit readings of
the first 8 bytes, which is the reading of their byte-wise XOR. -/
theorem Square_eq_Square2 (pad p : List Byte) (hpad : 8 ≤ pad.length) (hp : 8 ≤ p.length) :
    Square pad p = Square2 pad p ∧
    Square pad p = .ret (beNat (pad.take 8) ^^^ beNat (p.take 8)) ∧
    Square2 pad p = .ret (beNat (List.zipWith (fun x y => x ^^^ y) (pad.take 8) (p.take 8))) := by
  obtain ⟨a0, a1, a2, a3, a4, a5, a6, a7, ta, rfl⟩ := list_ge8 pad hpad
  obtain ⟨b0, b1, b2, b3, b4, b5, b6, b7, tb, rfl⟩ := list_ge8 p hp
  have h1 : Square (a0 :: a1 :: a2 :: a3 :: a4 :: a5 :: a6 :: a7 :: ta)
      (b0 :: b1 :: b2 :: b3 :: b4 :: b5 :: b6 :: b7 :: tb) =
      .ret (beNat [a0, a1, a2, a3, a4, a5, a6, a7] ^^^ beNat [b0, b1, b2, b3, b4, b5, b6, b7]) := by
    simp only [Square, Run.bind_eq, Run.pure_eq, Uint64_eq, Run.ret_bind]
  have h2 : Square2 (a0 :: a1 :: a2 :: a3 :: a4 :: a5 :: a6 :: a7 :: ta)
      (b0 :: b1 :: b2 :: b3 :: b4 :: b5 :: b6 :: b7 :: tb) =
      .ret (beNat (List.zipWith (fun x y => x ^^^ y) [a0, a1, a2, a3, a4, a5, a6, a7]
        [b0, b1, b2, b3, b4, b5, b6, b7])) := by
    simp [Square2, Square2Loop, index, store, Uint64_eq]
  have h3 := beNat_xor8 [a0, a1, a2, a3, a4, a5, a6, a7] [b0, b1, b2, b3, b4, b5, b6, b7] rfl rfl
  refine ⟨?_, ?_, ?_⟩
  · rw [h1, h2, h3]
  · rw [h1]; rfl
  · rw [h2]; rfl

/-- C19 at the input of `naaa_test.go`: `pad = p = {1, 2, 3, 4, 5, 6, 7, 8}`, for which
both functions return 0. -/
theorem Square_eq_Square2_witness :
    Square [1, 2, 3, 4, 5, 6, 7, 8] [1, 2, 3, 4, 5, 6, 7, 8] = .ret 0 ∧
    Square2 [1, 2, 3, 4, 5, 6, 7, 8] [1, 2, 3, 4, 5, 6, 7, 8] = .ret 0 ∧
    Square [1, 2, 3, 4, 5, 6, 7, 8] [1, 2, 3, 4, 5, 6, 7, 8] =
      Square2 [1, 2, 3, 4, 5, 6, 7, 8] [1, 2, 3, 4, 5, 6, 7, 8] :=
  ⟨by decide, by decide,
    (Square_eq_Square2 [1, 2, 3, 4, 5, 6, 7, 8] [1, 2, 3, 4, 5, 6, 7, 8] (by decide)
      (by decide)).1⟩

/-! ## Tokens that differ in unread bits -/

theorem twin_spec (v : Nat) (h : v < 64) : twin v < 64 ∧ twin v ≠ v ∧ twin v / 16 = v / 16 := by
  unfold twin; split <;> omega

theorem decodeLetters_append_mul4 : ∀ (k : Nat) (pre x : List Byte), pre.length = 4 * k →
    decodeLetters (pre ++ x) = decodeLetters pre ++ decodeLetters x := by
  intro k
  induction k with
  | zero =>
    intro pre x h
    have : pre = [] := List.length_eq_zero.1 (by omega)
    subst this
    simp [decodeLetters]
  | succ k ih =>
    intro pre x h
    have e : pre = pre.take 4 ++ pre.drop 4 := (List.take_append_drop 4 pre).symm
    have h4 : (pre.take 4).length = 4 := by simp; omega
    have hr : (pre.drop 4).length = 4 * k := by simp; omega
    rw [e, List.append_assoc, decodeLetters_append4 _ _ h4, ih _ x hr,
      decodeLetters_append4 _ _ h4, List.append_assoc]

/-- Replacing the last of 38 letters by its twin changes the text and not what it
decodes to. -/
theorem twinToken_spec (t : List Byte) (ht : t.length = 38) (hl : ∀ c ∈ t, decodeMap c < 64) :
    (twinToken t).length = 38 ∧ (∀ c ∈ twinToken t, decodeMap c < 64) ∧ twinToken t ≠ t ∧
    decodeLetters (twinToken t) = decodeLetters t := by
  have e : t = t.take 36 ++ t.drop 36 := (List.take_append_drop 36 t).symm
  have h36 : (t.take 36).length = 4 * 9 := by simp; omega
  obtain ⟨c36, c37, hc⟩ := list_len2 (t.drop 36) (by simp; omega)
  generalize t.take 36 = pre at e h36
  rw [hc] at e
  subst e
  have hl36 : decodeMap c36 < 64 := hl c36 (by simp)
  have hl37 : decodeMap c37 < 64 := hl c37 (by simp)
  obtain ⟨tw1, tw2, tw3⟩ := twin_spec (decodeMap c37) hl37
  have hd : decodeMap (encodeChar (twin (decodeMap c37))) = twin (decodeMap c37) := by
    have := decodeMap_encodeChar (twin (decodeMap c37))
    rwa [Nat.mod_eq_of_lt tw1] at this
  have htw : twinToken (pre ++ [c36, c37]) =
      pre ++ [c36, encodeChar (twin (decodeMap c37))] := by
    unfold twinToken
    have h1 : (pre ++ [c36, c37]).take 37 = pre ++ [c36] := by
      rw [List.take_append_eq_append_take, List.take_of_length_le (by omega)]
      simp [h36]
    have h2 : (pre ++ [c36, c37]).getD 37 0 = c37 := by
      rw [List.getD_append_right _ _ _ _ (by omega)]
      simp [h36]
    rw [h1, h2]; simp
  rw [htw]
  refine ⟨by simp [h36], ?_, ?_, ?_⟩
  · intro c hc'
    simp only [List.mem_append, List.mem_cons, List.mem_singleton, List.not_mem_nil,
      or_false] at hc'
    rcases hc' with h | rfl | rfl
    · exact hl c (by simp [h])
    · exact hl36
    · rw [hd]; exact tw1
  · intro heq
    have h3 := List.append_cancel_left heq
    simp only [List.cons.injEq, and_true, true_and] at h3
    have h4 := congrArg decodeMap h3
    rw [hd] at h4
    exact tw2 h4
  · rw [decodeLetters_append_mul4 9 pre _ h36, decodeLetters_append_mul4 9 pre _ h36]
    simp only [decodeLetters, hd, tw3]

/-- C20. Tokens are not canonical: for every token `t` returned by `Encrypt` there is a
text `t'` of 38 letters of the alphabet (so without `=`), different from `t`, that
`DecryptRaw` accepts with a nil error and the same integer as `t` — `t'` is `t` with its
last letter replaced by one with the same two high bits, the four low bits of the last
letter being dropped by the decoder.  `HmacSum` on the stored instances and `HmacSum2` on
the stored raw keys are the same function, with digests of at least 8 bytes, and the
scratch buffer has at least 28 bytes. -/
theorem DecryptRaw_not_canonical (E : Env F H) (dc : DoubleClickPricer F H)
    (seed : List Byte) (price : F) (t buf : List Byte) (hbuf : 28 ≤ buf.length)
    (hE : ∀ m, E.HmacSum dc.encryptionKey m = E.HmacSum2 dc.encryptionKeyRaw m)
    (hI : ∀ m, E.HmacSum dc.integrityKey m = E.HmacSum2 dc.integrityKeyRaw m)
    (hlen : ∀ k m, 8 ≤ (E.HmacSum2 k m).length)
    (ht : Encrypt E dc seed price = .ret (t, none)) :
    ∃ t' v, t'.length = 38 ∧ t' ≠ t ∧ (∀ c ∈ t', inAlphabet c) ∧ (61 : Byte) ∉ t' ∧
      DecryptRaw E dc t buf = .ret (v, none) ∧ DecryptRaw E dc t' buf = .ret (v, none) := by
  have hiv := (E.md5Sum seed).property
  have hdata := (E.ApplyScaleFactor price dc.scaleFactor).property
  obtain ⟨t0, e0, hlen38, halpha, hdec⟩ := Encrypt_decoded E dc seed price buf hbuf
    (by rw [hE]; exact hlen _ _) (by rw [hI]; exact le_trans (by omega) (hlen _ _))
  rw [ht] at e0
  simp only [Run.ret.injEq, Prod.mk.injEq, and_true] at e0
  subst e0
  rw [hE, hI] at hdec
  have hlet : ∀ c ∈ t, decodeMap c < 64 := fun c hc => (letter_iff_alphabet c).2 (halpha c hc)
  have htrim : TrimRight t 61 = t := TrimRight_self _ _ fun x hx => alphabet_ne_pad x (halpha x hx)
  obtain ⟨l1, l2, l3, l4⟩ := twinToken_spec t hlen38 hlet
  have halpha' : ∀ c ∈ twinToken t, inAlphabet c :=
    fun c hc => (letter_iff_alphabet c).1 (l2 c hc)
  have htrim' : TrimRight (twinToken t) 61 = twinToken t :=
    TrimRight_self _ _ fun x hx => alphabet_ne_pad x (halpha' x hx)
  have hdec' : Decode buf (twinToken t) = Decode buf t := by
    rw [Decode_letters38 buf _ l1 l2 hbuf, Decode_letters38 buf t hlen38 hlet hbuf, l4]
  refine ⟨twinToken t, beNat (E.ApplyScaleFactor price dc.scaleFactor).val, l1, l3, halpha',
    fun hmem => alphabet_ne_pad _ (halpha' _ hmem) rfl, ?_, ?_⟩
  · exact DecryptRaw_accepts E dc t buf _ _ (buf.drop 28) 28 (by rw [htrim]; exact hlen38) hiv
      hdata hlen (by rw [htrim]; exact hdec)
  · exact DecryptRaw_accepts E dc (twinToken t) buf _ _ (buf.drop 28) 28
      (by rw [htrim']; exact l1) hiv hdata hlen (by rw [htrim', hdec']; exact hdec)

set_option maxRecDepth 100000 in
/-- C20 at a concrete input: `toyToken`, and `toyTwin`, which `DecryptRaw` accepts with the
same integer although `Encrypt` does not return it. -/
theorem DecryptRaw_not_canonical_witness :
    Encrypt toyEnv toyPricer [97, 98, 99] 15 = .ret (toyToken, none) ∧
    twinToken toyToken = toyTwin ∧ toyTwin ≠ toyToken ∧
    DecryptRaw toyEnv toyPricer toyTwin (List.replicate 28 0) = .ret (15000000, none) ∧
    ∃ t' v, t'.length = 38 ∧ t' ≠ toyToken ∧ (∀ c ∈ t', inAlphabet c) ∧ (61 : Byte) ∉ t' ∧
      DecryptRaw toyEnv toyPricer toyToken (List.replicate 28 0) = .ret (v, none) ∧
      DecryptRaw toyEnv toyPricer t' (List.replicate 28 0) = .ret (v, none) :=
  ⟨by decide, by decide, by decide, by decide,
    DecryptRaw_not_canonical toyEnv toyPricer [97, 98, 99] 15 toyToken (List.replicate 28 0)
      (by decide) (fun _ => rfl) (fun _ => rfl) (fun k m => by simp [toyEnv, toyDigest])
      (by decide)⟩

/-! ## The two packages -/

/-- C16. The two implementations are redundant: for the same key instances and scale
factor, `Encrypt` of package `doubleclick` and of package `pricers` return the same token
for every seed and price, and their `DecryptRaw` return the same integer and error (or
panic alike) for every input and scratch buffer — given that `ApplyScaleFactor` of the
two packages is the same function and that `HmacSum(h, a, b)` of package `helpers`,
`HmacSum(h, a ‖ b)` of package `pricers` and `HmacSum2(k, a ‖ b)` agree on the stored
instances and raw keys. -/
theorem doubleclick_eq_pricers (E : Env F H) (P : doubleclick.Helpers F H)
    (dc : DoubleClickPricer F H) (dc2 : doubleclick.DoubleClickPricer F H)
    (hek : dc2.encryptionKey = dc.encryptionKey) (hik : dc2.integrityKey = dc.integrityKey)
    (hsf : dc2.scaleFactor = dc.scaleFactor)
    (hscale : ∀ p s, P.ApplyScaleFactor p s = E.ApplyScaleFactor p s)
    (h3E : ∀ a b, P.HmacSum dc.encryptionKey a b = E.HmacSum2 dc.encryptionKeyRaw (a ++ b))
    (h3I : ∀ a b, P.HmacSum dc.integrityKey a b = E.HmacSum2 dc.integrityKeyRaw (a ++ b))
    (hE : ∀ m, E.HmacSum dc.encryptionKey m = E.HmacSum2 dc.encryptionKeyRaw m)
    (hI : ∀ m, E.HmacSum dc.integrityKey m = E.HmacSum2 dc.integrityKeyRaw m) :
    (∀ seed price, doubleclick.Encrypt E.md5Sum P dc2 seed price = Encrypt E dc seed price) ∧
    (∀ encryptedPrice buf,
      doubleclick.DecryptRaw P dc2 encryptedPrice buf = DecryptRaw E dc encryptedPrice buf) := by
  constructor
  · intro seed price
    unfold doubleclick.Encrypt Encrypt
    simp only [hek, hik, hsf, hscale, h3E, h3I, hE, hI, List.append_nil]
  · intro encryptedPrice buf
    unfold doubleclick.DecryptRaw DecryptRaw
    simp only [hek, hik, h3E, h3I, List.append_nil]

set_option maxRecDepth 100000 in
/-- C16 at a concrete input: `toyPricer2` with `toyHelpers` against `toyPricer` with
`toyEnv`. -/
theorem doubleclick_eq_pricers_witness :
    (∀ a b, toyHelpers.HmacSum toyPricer.encryptionKey a b =
      toyEnv.HmacSum2 toyPricer.encryptionKeyRaw (a ++ b)) ∧
    doubleclick.Encrypt toyEnv.md5Sum toyHelpers toyPricer2 [97, 98, 99] 15 =
      .ret (toyToken, none) ∧
    doubleclick.DecryptRaw toyHelpers toyPricer2 toyToken (List.replicate 28 0) =
      .ret (15000000, none) ∧
    (∀ seed price, doubleclick.Encrypt toyEnv.md5Sum toyHelpers toyPricer2 seed price =
      Encrypt toyEnv toyPricer seed price) ∧
    (∀ encryptedPrice buf, doubleclick.DecryptRaw toyHelpers toyPricer2 encryptedPrice buf =
      DecryptRaw toyEnv toyPricer encryptedPrice buf) :=
  ⟨fun _ _ => rfl, by decide, by decide,
    doubleclick_eq_pricers toyEnv toyHelpers toyPricer toyPricer2 rfl rfl rfl (fun _ _ => rfl)
      (fun _ _ => rfl) (fun _ _ => rfl) (fun _ => rfl) (fun _ => rfl)⟩

/-! ## Calls in sequence -/

/-- The outcome of `EncryptS` is that of `Encrypt` on the instances as they are. -/
theorem EncryptS_fst (after : H → List Byte → H) (E : Env F H) (dc : DoubleClickPricer F H)
    (seed : List Byte) (price : F) :
    (EncryptS after E dc seed price).1 = Encrypt E dc seed price := by
  unfold EncryptS Encrypt
  simp only [Run.bind_eq, Run.pure_eq]
  cases slice (E.HmacSum dc.encryptionKey (E.md5Sum seed).val) 0 8 with
  | ret pad =>
    simp only [Run.ret_bind]
    cases slice (E.HmacSum dc.integrityKey
      ((E.ApplyScaleFactor price dc.scaleFactor).val ++ (E.md5Sum seed).val)) 0 4 <;> rfl
  | panic => rfl
  | starved => rfl

theorem Encrypt_SameDigests (E : Env F H) (dc dc1 : DoubleClickPricer F H)
    (h : SameDigests E dc dc1) (seed : List Byte) (price : F) :
    Encrypt E dc1 seed price = Encrypt E dc seed price := by
  obtain ⟨h1, h2, h3⟩ := h
  unfold Encrypt
  simp only [h1, h2, h3]

theorem afterCall_SameDigests (after : H → List Byte → H) (E : Env F H)
    (hind : ∀ h m m1, E.HmacSum (after h m1) m = E.HmacSum h m)
    (dc dc1 : DoubleClickPricer F H) (h : SameDigests E dc dc1) (c : Call F) :
    SameDigests E dc (afterCall after E dc1 c) := by
  obtain ⟨h1, h2, h3⟩ := h
  cases c with
  | Decrypt _ => exact ⟨h1, h2, h3⟩
  | DecryptRaw _ _ => exact ⟨h1, h2, h3⟩
  | Encrypt seed price =>
    unfold afterCall EncryptS
    simp only []
    cases slice (E.HmacSum dc1.encryptionKey (E.md5Sum seed).val) 0 8 with
    | ret pad =>
      simp only []
      cases slice (E.HmacSum dc1.integrityKey
        ((E.ApplyScaleFactor price dc1.scaleFactor).val ++ (E.md5Sum seed).val)) 0 4 <;>
      exact ⟨h1, fun m => (hind _ _ _).trans (h2 m), fun m => (hind _ _ _).trans (h3 m)⟩
    | panic => exact ⟨h1, fun m => (hind _ _ _).trans (h2 m), h3⟩
    | starved => exact ⟨h1, fun m => (hind _ _ _).trans (h2 m), h3⟩

theorem afterCalls_SameDigests (after : H → List Byte → H) (E : Env F H)
    (hind : ∀ h m m1, E.HmacSum (after h m1) m = E.HmacSum h m)
    (dc : DoubleClickPricer F H) : ∀ (calls : List (Call F)) (dc1 : DoubleClickPricer F H),
    SameDigests E dc dc1 → SameDigests E dc (afterCalls after E dc1 calls) := by
  intro calls
  induction calls with
  | nil => intro dc1 h; exact h
  | cons c cs ih =>
    intro dc1 h
    exact ih _ (afterCall_SameDigests after E hind dc dc1 h c)

/-- The digest of `HmacSum` as the spec describes it does not depend on what the instance
has accumulated in earlier calls. -/
theorem HmacSumS_after (Digest : List Byte → List Byte → List Byte) (E : Env F H)
    (h : KeyedHash) (m m1 : List Byte) :
    (specEnv Digest E).HmacSum (specAfter Digest h m1) m = (specEnv Digest E).HmacSum h m :=
  rfl

/-- C12. Determinism: with the keyed hash as the spec describes it, `Encrypt(seed, price)`
returns the same token on a pricer, whatever its two stored hash instances have
accumulated, and on the same pricer after any sequence of `Encrypt`, `Decrypt` and
`DecryptRaw` calls (a first `Encrypt(seed, price)` among them), the state of the
instances being threaded through the calls. -/
theorem Encrypt_deterministic (Digest : List Byte → List Byte → List Byte) (E : Env F H)
    (dc : DoubleClickPricer F KeyedHash) (calls : List (Call F)) (seed : List Byte) (price : F) :
    (EncryptS (specAfter Digest) (specEnv Digest E)
        (afterCalls (specAfter Digest) (specEnv Digest E) dc calls) seed price).1 =
      (EncryptS (specAfter Digest) (specEnv Digest E) dc seed price).1 := by
  rw [EncryptS_fst, EncryptS_fst]
  exact Encrypt_SameDigests (specEnv Digest E) dc _
    (afterCalls_SameDigests (specAfter Digest) (specEnv Digest E) (HmacSumS_after Digest E) dc
      calls dc ⟨rfl, fun _ => rfl, fun _ => rfl⟩) seed price

set_option maxRecDepth 100000 in
/-- On `toyPricerS` the calls of `toyCalls` leave both stored instances in another state
(the encryption instance holds the 16-byte digest of the seed `d`, the integrity instance
the scaled price 7000000 and that digest), and `Encrypt` of the seed `abc` and the price
15 returns `toyToken` before them and after them. -/
theorem Encrypt_deterministic_witness :
    (afterCalls (specAfter toyDigest) (specEnv toyDigest toyEnv) toyPricerS
        toyCalls).encryptionKey = ⟨[1, 2, 3], [100] ++ List.replicate 15 0⟩ ∧
    (afterCalls (specAfter toyDigest) (specEnv toyDigest toyEnv) toyPricerS
        toyCalls).integrityKey =
      ⟨[4, 5, 6], be64 7000000 ++ ([100] ++ List.replicate 15 0)⟩ ∧
    (EncryptS (specAfter toyDigest) (specEnv toyDigest toyEnv) toyPricerS [97, 98, 99] 15).1 =
      .ret (toyToken, none) ∧
    (EncryptS (specAfter toyDigest) (specEnv toyDigest toyEnv)
        (afterCalls (specAfter toyDigest) (specEnv toyDigest toyEnv) toyPricerS toyCalls)
        [97, 98, 99] 15).1 =
      (EncryptS (specAfter toyDigest) (specEnv toyDigest toyEnv) toyPricerS [97, 98, 99] 15).1 :=
  ⟨by decide, by decide, by decide,
    Encrypt_deterministic toyDigest toyEnv toyPricerS toyCalls [97, 98, 99] 15⟩

end pricers
